import Mathlib

/-!
Verification of the Shroud secret wrapper (Go package `shroud`).

The repository's production code is `src/shroud.go`: a `Client` holding a
32-byte AES-256 key, `NewSecretClient` (key-length validation), `Shroud`
(JSON-marshal, AES-GCM seal under a fresh 12-byte random nonce, base64
encode), `CreateFromEncrypted` (base64 format validation only),
`Secret.Expose` (base64 decode, nonce split, GCM open, JSON unmarshal) and
`Secret.EncryptedValue`.

The Go standard-library components the code calls (`encoding/base64`,
`encoding/json`, `crypto/aes` + `crypto/cipher` GCM, `crypto/rand`) are not
part of the repository.  `base64`, UTF-8 and the JSON encoder/decoder are
embedded concretely below, faithful to their documented deterministic
behaviour.  The AEAD is modelled from the spec as an ideal GCM-shaped
cipher (12-byte nonce, XOR keystream, 16-byte authentication tag computed
as a polynomial hash of key, nonce and ciphertext modulo an odd 128-bit
modulus); randomness (the nonce) is passed as an explicit argument.

Machine bytes are modelled as `Nat` together with `< 256` bounds.
-/

namespace Shroud

/-! ### Bytes and the polynomial tag -/

/-- All elements of a byte list are genuine bytes. -/
def isBytes (l : List Nat) : Prop := ∀ b ∈ l, b < 256

instance (l : List Nat) : Decidable (isBytes l) := by
  unfold isBytes; infer_instance

/-- Base-256 polynomial hash of a byte string (big-endian positional value). -/
def polyHash (l : List Nat) : Nat := l.foldl (fun s b => s * 256 + b) 0

/-- The positional fold from an arbitrary starting state. -/
def polyHashFrom (s : Nat) (l : List Nat) : Nat := l.foldl (fun s b => s * 256 + b) s

/-- Big-endian fixed-width byte encoding of a natural number. -/
def natToBytesBE : Nat → Nat → List Nat
  | 0, _ => []
  | w + 1, n => n / 256 ^ w % 256 :: natToBytesBE w n

theorem polyHashFrom_nil (s : Nat) : polyHashFrom s [] = s := rfl

theorem polyHashFrom_cons (s b : Nat) (l : List Nat) :
    polyHashFrom s (b :: l) = polyHashFrom (s * 256 + b) l := rfl

theorem polyHashFrom_eq (s : Nat) (l : List Nat) :
    polyHashFrom s l = s * 256 ^ l.length + polyHash l := by
  induction l generalizing s with
  | nil => simp [polyHashFrom, polyHash]
  | cons b t ih =>
    rw [polyHashFrom_cons, ih]
    show _ = s * 256 ^ (t.length + 1) + polyHash (b :: t)
    have hb : polyHash (b :: t) = polyHashFrom (0 * 256 + b) t := rfl
    rw [hb, Nat.zero_mul, Nat.zero_add, ih]
    ring

theorem polyHash_append (l1 l2 : List Nat) :
    polyHash (l1 ++ l2) = polyHash l1 * 256 ^ l2.length + polyHash l2 := by
  have h1 : polyHash (l1 ++ l2) = polyHashFrom (polyHash l1) l2 := by
    unfold polyHash polyHashFrom
    exact List.foldl_append ..
  rw [h1, polyHashFrom_eq]

theorem natToBytesBE_length (w n : Nat) : (natToBytesBE w n).length = w := by
  induction w generalizing n with
  | zero => rfl
  | succ w ih => simp [natToBytesBE, ih]

theorem natToBytesBE_isBytes (w n : Nat) : isBytes (natToBytesBE w n) := by
  induction w generalizing n with
  | zero => intro b hb; simp [natToBytesBE] at hb
  | succ w ih =>
    intro b hb
    simp only [natToBytesBE, List.mem_cons] at hb
    rcases hb with h | h
    · subst h; exact Nat.mod_lt _ (by norm_num)
    · exact ih n b h

theorem polyHash_natToBytesBE (w n : Nat) :
    polyHash (natToBytesBE w n) = n % 256 ^ w := by
  induction w generalizing n with
  | zero => simp [natToBytesBE, polyHash, Nat.mod_one]
  | succ w ih =>
    have hcons : polyHash (natToBytesBE (w + 1) n)
        = polyHashFrom (0 * 256 + n / 256 ^ w % 256) (natToBytesBE w n) := rfl
    rw [Nat.zero_mul, Nat.zero_add] at hcons
    rw [hcons, polyHashFrom_eq, natToBytesBE_length, ih]
    rw [Nat.pow_succ]
    rw [Nat.mod_mul]
    ring

theorem natToBytesBE_inj {w n m : Nat} (hn : n < 256 ^ w) (hm : m < 256 ^ w)
    (h : natToBytesBE w n = natToBytesBE w m) : n = m := by
  have := congrArg polyHash h
  rw [polyHash_natToBytesBE, polyHash_natToBytesBE,
    Nat.mod_eq_of_lt hn, Nat.mod_eq_of_lt hm] at this
  exact this

/-! ### Ideal AEAD model (GCM shape)

Modelled from the spec: the repository calls Go's `crypto/cipher` AES-GCM
(`gcm.Seal` / `gcm.Open`), which is not part of the repository.  Per the
spec (§4.1, §6) the AEAD has a 96-bit nonce and a 128-bit tag, produces
`ciphertext ‖ tag` with `len(ciphertext) = len(plaintext)`, and decryption
fails whenever the authentication tag does not verify.  The block cipher is
idealised: the keystream is a deterministic function of key and nonce, and
the tag is a positional polynomial hash of `key ‖ nonce ‖ ciphertext`
reduced modulo the odd constant `2 ^ 128 - 1` (odd so that a change to any
single byte provably changes the tag). -/

def nonceSize : Nat := 12

/-- GCM tag size in bytes (`gcm.Overhead()`). -/
def gcmTagSize : Nat := 16

/-- Odd 128-bit modulus for the idealised authentication tag. -/
def macMod : Nat := 2 ^ 128 - 1

/-- Idealised 16-byte authentication tag over key, nonce and ciphertext. -/
def gcmTag (key nonce ct : List Nat) : List Nat :=
  natToBytesBE 16 (polyHash (key ++ nonce ++ ct) % macMod)

/-- Idealised CTR keystream: a deterministic byte stream from key and nonce. -/
def keystream (key nonce : List Nat) (len : Nat) : List Nat :=
  (List.range len).map (fun i => (polyHash (key ++ nonce) + i) % 256)

/-- `gcm.Seal(nil, nonce, pt, nil)` : ciphertext (same length as the
plaintext) followed by the 16-byte tag. -/
def gcmSeal (key nonce pt : List Nat) : List Nat :=
  let ct := List.zipWith (fun a b => a ^^^ b) pt (keystream key nonce pt.length)
  ct ++ gcmTag key nonce ct

/-- `gcm.Open(nil, nonce, data, nil)` : split off the trailing 16-byte tag,
recompute it over the received ciphertext and fail unless it matches. -/
def gcmOpen (key nonce data : List Nat) : Option (List Nat) :=
  if data.length < gcmTagSize then none
  else
    let ct := data.take (data.length - gcmTagSize)
    let tag := data.drop (data.length - gcmTagSize)
    if tag = gcmTag key nonce ct then
      some (List.zipWith (fun a b => a ^^^ b) ct (keystream key nonce ct.length))
    else none

theorem keystream_length (key nonce : List Nat) (len : Nat) :
    (keystream key nonce len).length = len := by
  simp [keystream]

theorem keystream_isBytes (key nonce : List Nat) (len : Nat) :
    isBytes (keystream key nonce len) := by
  intro b hb
  simp only [keystream, List.mem_map] at hb
  obtain ⟨i, _, rfl⟩ := hb
  exact Nat.mod_lt _ (by norm_num)

theorem zipWith_xor_cancel (pt ks : List Nat) (h : pt.length = ks.length) :
    List.zipWith (fun a b => a ^^^ b)
      (List.zipWith (fun a b => a ^^^ b) pt ks) ks = pt := by
  induction pt generalizing ks with
  | nil => simp
  | cons p pt ih =>
    cases ks with
    | nil => simp at h
    | cons k ks =>
      simp only [List.zipWith_cons_cons, List.cons.injEq]
      refine ⟨Nat.xor_cancel_right .., ih ks (by simpa using h)⟩

theorem gcmSeal_length (key nonce pt : List Nat) :
    (gcmSeal key nonce pt).length = pt.length + gcmTagSize := by
  simp [gcmSeal, gcmTag, natToBytesBE_length, keystream_length, gcmTagSize]

theorem xor_lt_256 {a b : Nat} (ha : a < 256) (hb : b < 256) : a ^^^ b < 256 := by
  have : a ^^^ b < 2 ^ 8 := Nat.bitwise_lt_two_pow (n := 8) ha hb
  simpa using this

theorem gcmSeal_isBytes (key nonce pt : List Nat) (hpt : isBytes pt) :
    isBytes (gcmSeal key nonce pt) := by
  intro b hb
  simp only [gcmSeal, List.mem_append] at hb
  rcases hb with h | h
  · rw [List.mem_iff_get] at h
    obtain ⟨i, hi⟩ := h
    rw [List.get_zipWith] at hi
    subst hi
    refine xor_lt_256 (hpt _ (List.get_mem ..)) (keystream_isBytes _ _ _ _ (List.get_mem ..))
  · exact natToBytesBE_isBytes _ _ b h

theorem gcmOpen_gcmSeal (key nonce pt : List Nat) :
    gcmOpen key nonce (gcmSeal key nonce pt) = some pt := by
  unfold gcmOpen
  have hct : (List.zipWith (fun a b => a ^^^ b) pt
      (keystream key nonce pt.length)).length = pt.length := by
    simp [keystream_length]
  have hlen : (gcmSeal key nonce pt).length = pt.length + gcmTagSize :=
    gcmSeal_length ..
  rw [hlen]
  rw [if_neg (by omega)]
  have hsub : pt.length + gcmTagSize - gcmTagSize = pt.length := by omega
  rw [hsub]
  unfold gcmSeal
  simp only
  rw [List.take_left' hct, List.drop_left' hct]
  rw [if_pos rfl, hct]
  rw [zipWith_xor_cancel _ _ (by simp [keystream_length])]

theorem macMod_pos : 0 < macMod := by decide

theorem macMod_lt : macMod < 256 ^ 16 := by decide

theorem macMod_coprime_two : Nat.Coprime macMod 2 := by decide

theorem polyHash_middle (pre suf : List Nat) (b : Nat) :
    polyHash (pre ++ b :: suf)
      = polyHash pre * 256 ^ (suf.length + 1) + b * 256 ^ suf.length + polyHash suf := by
  rw [polyHash_append]
  have hb : polyHash (b :: suf) = polyHashFrom (0 * 256 + b) suf := rfl
  rw [hb, Nat.zero_mul, Nat.zero_add, polyHashFrom_eq]
  simp [List.length_cons]
  ring

/-- Changing any single byte of the authenticated stream changes the
idealised tag: the two polynomial hashes differ by `d * 2 ^ (8 * k)` with
`0 < d < 256`, which the odd modulus cannot divide. -/
theorem tagBytes_ne_of_byte_change (pre suf : List Nat) (b b' : Nat)
    (hne : b ≠ b') (hb : b < 256) (hb' : b' < 256) :
    natToBytesBE 16 (polyHash (pre ++ b :: suf) % macMod)
      ≠ natToBytesBE 16 (polyHash (pre ++ b' :: suf) % macMod) := by
  have key : ∀ x y : Nat, x < y → y < 256 →
      natToBytesBE 16 (polyHash (pre ++ x :: suf) % macMod)
        ≠ natToBytesBE 16 (polyHash (pre ++ y :: suf) % macMod) := by
    intro x y hxy hy habs
    have hmodeq : polyHash (pre ++ x :: suf) % macMod
        = polyHash (pre ++ y :: suf) % macMod :=
      natToBytesBE_inj
        (lt_of_lt_of_le (Nat.mod_lt _ macMod_pos) (le_of_lt macMod_lt))
        (lt_of_lt_of_le (Nat.mod_lt _ macMod_pos) (le_of_lt macMod_lt)) habs
    have hdiff : polyHash (pre ++ y :: suf)
        = polyHash (pre ++ x :: suf) + (y - x) * 256 ^ suf.length := by
      rw [polyHash_middle, polyHash_middle]
      have : y * 256 ^ suf.length
          = x * 256 ^ suf.length + (y - x) * 256 ^ suf.length := by
        rw [← Nat.add_mul]
        congr 1
        omega
      omega
    have hle : polyHash (pre ++ x :: suf) ≤ polyHash (pre ++ y :: suf) := by
      rw [hdiff]; exact Nat.le_add_right ..
    have hdvd : macMod ∣ polyHash (pre ++ y :: suf) - polyHash (pre ++ x :: suf) :=
      (Nat.modEq_iff_dvd' hle).mp hmodeq
    rw [hdiff, Nat.add_sub_cancel_left] at hdvd
    have h256 : (256 : Nat) ^ suf.length = 2 ^ (8 * suf.length) := by
      rw [Nat.pow_mul]
    rw [h256] at hdvd
    have hcop : Nat.Coprime macMod (2 ^ (8 * suf.length)) :=
      Nat.Coprime.pow_right _ macMod_coprime_two
    have hdvd' : macMod ∣ y - x := hcop.dvd_of_dvd_mul_right hdvd
    have hpos : 0 < y - x := by omega
    have : macMod ≤ y - x := Nat.le_of_dvd hpos hdvd'
    have : macMod < 256 := by omega
    exact absurd this (by decide)
  rcases Nat.lt_or_ge b b' with h | h
  · exact key b b' h hb'
  · have hlt : b' < b := lt_of_le_of_ne h (Ne.symm hne)
    exact fun habs => key b' b hlt hb habs.symm

/-! ### Base64 (Go `encoding/base64` StdEncoding)

Modelled from the spec: the repository uses Go's
`base64.StdEncoding.EncodeToString` / `DecodeString` (standard alphabet,
`=` padding), which are not part of the repository.  The encoder processes
3-byte groups into 4 alphabet characters; the decoder requires a length
that is a multiple of four, rejects characters outside the alphabet,
allows padding only at the end, and (like Go's default, non-strict
decoder) does not insist that unused trailing bits are zero. -/

def b64Char (n : Nat) : Char :=
  if n < 26 then Char.ofNat (65 + n)
  else if n < 52 then Char.ofNat (97 + (n - 26))
  else if n < 62 then Char.ofNat (48 + (n - 52))
  else if n = 62 then '+' else '/'

def b64Index (c : Char) : Option Nat :=
  let n := c.toNat
  if 65 ≤ n ∧ n ≤ 90 then some (n - 65)
  else if 97 ≤ n ∧ n ≤ 122 then some (n - 97 + 26)
  else if 48 ≤ n ∧ n ≤ 57 then some (n - 48 + 52)
  else if n = 43 then some 62
  else if n = 47 then some 63
  else none

def b64encode : List Nat → List Char
  | [] => []
  | [a] => [b64Char (a / 4), b64Char (a % 4 * 16), '=', '=']
  | [a, b] => [b64Char (a / 4), b64Char (a % 4 * 16 + b / 16), b64Char (b % 16 * 4), '=']
  | a :: b :: d :: rest =>
    b64Char (a / 4) :: b64Char (a % 4 * 16 + b / 16) ::
      b64Char (b % 16 * 4 + d / 64) :: b64Char (d % 64) :: b64encode rest

def b64decode : List Char → Option (List Nat)
  | [] => some []
  | c1 :: c2 :: c3 :: c4 :: rest =>
    match b64Index c1, b64Index c2 with
    | some n1, some n2 =>
      if c3 = '=' then
        if c4 = '=' ∧ rest = [] then some [n1 * 4 + n2 / 16] else none
      else
        match b64Index c3 with
        | some n3 =>
          if c4 = '=' then
            if rest = [] then some [n1 * 4 + n2 / 16, n2 % 16 * 16 + n3 / 4] else none
          else
            match b64Index c4 with
            | some n4 =>
              match b64decode rest with
              | some tail =>
                some ((n1 * 4 + n2 / 16) :: (n2 % 16 * 16 + n3 / 4) :: (n3 % 4 * 64 + n4) :: tail)
              | none => none
            | none => none
        | none => none
    | _, _ => none
  | _ => none

theorem b64Index_b64Char : ∀ n, n < 64 → b64Index (b64Char n) = some n := by decide

theorem b64Char_ne_pad : ∀ n, n < 64 → b64Char n ≠ '=' := by decide

theorem b64decode_b64encode (bytes : List Nat) (h : isBytes bytes) :
    b64decode (b64encode bytes) = some bytes := by
  induction bytes using b64encode.induct with
  | case1 => rfl
  | case2 a =>
    have ha : a < 256 := h a (by simp)
    have hi1 : b64Index (b64Char (a / 4)) = some (a / 4) :=
      b64Index_b64Char _ (by omega)
    have hi2 : b64Index (b64Char (a % 4 * 16)) = some (a % 4 * 16) :=
      b64Index_b64Char _ (by omega)
    simp only [b64encode, b64decode, hi1, hi2, if_true, ite_true, and_self,
      Option.some.injEq, List.cons.injEq, and_true, eq_self_iff_true]
    omega
  | case3 a b =>
    have ha : a < 256 := h a (by simp)
    have hb : b < 256 := h b (by simp)
    have hi1 : b64Index (b64Char (a / 4)) = some (a / 4) :=
      b64Index_b64Char _ (by omega)
    have hi2 : b64Index (b64Char (a % 4 * 16 + b / 16)) = some (a % 4 * 16 + b / 16) :=
      b64Index_b64Char _ (by omega)
    have hi3 : b64Index (b64Char (b % 16 * 4)) = some (b % 16 * 4) :=
      b64Index_b64Char _ (by omega)
    have hp3 : ¬(b64Char (b % 16 * 4) = '=') := b64Char_ne_pad _ (by omega)
    simp only [b64encode, b64decode, hi1, hi2, hi3, hp3, if_neg hp3, if_true,
      ite_true, ite_false, if_false, Option.some.injEq, List.cons.injEq, and_true,
      eq_self_iff_true]
    constructor <;> omega
  | case4 a b d rest ih =>
    have ha : a < 256 := h a (by simp)
    have hb : b < 256 := h b (by simp)
    have hd : d < 256 := h d (by simp)
    have hrest : isBytes rest := fun x hx => h x (by simp [hx])
    have hi1 : b64Index (b64Char (a / 4)) = some (a / 4) :=
      b64Index_b64Char _ (by omega)
    have hi2 : b64Index (b64Char (a % 4 * 16 + b / 16)) = some (a % 4 * 16 + b / 16) :=
      b64Index_b64Char _ (by omega)
    have hi3 : b64Index (b64Char (b % 16 * 4 + d / 64)) = some (b % 16 * 4 + d / 64) :=
      b64Index_b64Char _ (by omega)
    have hi4 : b64Index (b64Char (d % 64)) = some (d % 64) :=
      b64Index_b64Char _ (by omega)
    have hp3 : ¬(b64Char (b % 16 * 4 + d / 64) = '=') := b64Char_ne_pad _ (by omega)
    have hp4 : ¬(b64Char (d % 64) = '=') := b64Char_ne_pad _ (by omega)
    have har1 : a / 4 * 4 + (a % 4 * 16 + b / 16) / 16 = a := by omega
    have har2 : (a % 4 * 16 + b / 16) % 16 * 16 + (b % 16 * 4 + d / 64) / 4 = b := by omega
    have har3 : (b % 16 * 4 + d / 64) % 4 * 64 + d % 64 = d := by omega
    simp [b64encode, b64decode, hi1, hi2, hi3, hi4, hp3, hp4, ih hrest, har1, har2, har3]

theorem b64encode_inj {b1 b2 : List Nat} (h1 : isBytes b1) (h2 : isBytes b2)
    (h : b64encode b1 = b64encode b2) : b1 = b2 := by
  have := congrArg b64decode h
  rw [b64decode_b64encode b1 h1, b64decode_b64encode b2 h2] at this
  exact Option.some.inj this

/-! ### UTF-8

Modelled from the spec: Go strings are UTF-8 byte sequences; `json.Marshal`
emits UTF-8 bytes and `json.Unmarshal` reads them.  Characters are encoded
with the standard 1–4 byte scheme; the decoder checks leading-byte ranges,
continuation bytes and scalar-value validity. -/

def utf8EncodeChar (c : Char) : List Nat :=
  if c.toNat < 0x80 then [c.toNat]
  else if c.toNat < 0x800 then [0xC0 + c.toNat / 64, 0x80 + c.toNat % 64]
  else if c.toNat < 0x10000 then
    [0xE0 + c.toNat / 4096, 0x80 + c.toNat / 64 % 64, 0x80 + c.toNat % 64]
  else
    [0xF0 + c.toNat / 262144, 0x80 + c.toNat / 4096 % 64,
      0x80 + c.toNat / 64 % 64, 0x80 + c.toNat % 64]

def utf8Encode (s : List Char) : List Nat := (s.map utf8EncodeChar).flatten

def contByte (b : Nat) : Prop := 0x80 ≤ b ∧ b < 0xC0

instance (b : Nat) : Decidable (contByte b) := by unfold contByte; infer_instance

def utf8DecodeOne : List Nat → Option (Char × List Nat)
  | [] => none
  | b0 :: rest =>
    if b0 < 0x80 then some (Char.ofNat b0, rest)
    else if b0 < 0xC0 then none
    else if b0 < 0xE0 then
      match rest with
      | b1 :: rest1 =>
        if contByte b1 then
          if Nat.isValidChar ((b0 - 0xC0) * 64 + (b1 - 0x80)) then
            some (Char.ofNat ((b0 - 0xC0) * 64 + (b1 - 0x80)), rest1)
          else none
        else none
      | [] => none
    else if b0 < 0xF0 then
      match rest with
      | b1 :: b2 :: rest2 =>
        if contByte b1 ∧ contByte b2 then
          if Nat.isValidChar ((b0 - 0xE0) * 4096 + (b1 - 0x80) * 64 + (b2 - 0x80)) then
            some (Char.ofNat ((b0 - 0xE0) * 4096 + (b1 - 0x80) * 64 + (b2 - 0x80)), rest2)
          else none
        else none
      | _ => none
    else if b0 < 0xF8 then
      match rest with
      | b1 :: b2 :: b3 :: rest3 =>
        if contByte b1 ∧ contByte b2 ∧ contByte b3 then
          if Nat.isValidChar
              ((b0 - 0xF0) * 262144 + (b1 - 0x80) * 4096 + (b2 - 0x80) * 64 + (b3 - 0x80)) then
            some (Char.ofNat
              ((b0 - 0xF0) * 262144 + (b1 - 0x80) * 4096 + (b2 - 0x80) * 64 + (b3 - 0x80)), rest3)
          else none
        else none
      | _ => none
    else none

/-- Byte-level UTF-8 decoding loop; the fuel argument only bounds the
recursion and is in practice the length of the input. -/
def utf8DecodeLoop : Nat → List Nat → Option (List Char)
  | _, [] => some []
  | 0, _ :: _ => none
  | fuel + 1, b0 :: rest =>
    match utf8DecodeOne (b0 :: rest) with
    | some (c, tl) =>
      match utf8DecodeLoop fuel tl with
      | some cs => some (c :: cs)
      | none => none
    | none => none

def utf8Decode (bs : List Nat) : Option (List Char) := utf8DecodeLoop bs.length bs

theorem char_toNat_valid (c : Char) : Nat.isValidChar c.toNat := c.valid

theorem char_toNat_lt (c : Char) : c.toNat < 0x110000 := by
  rcases char_toNat_valid c with h | ⟨_, h⟩
  · omega
  · exact h

theorem utf8EncodeChar_isBytes (c : Char) : isBytes (utf8EncodeChar c) := by
  have := char_toNat_lt c
  unfold utf8EncodeChar
  split
  · intro b hb; simp only [List.mem_singleton] at hb; omega
  · split
    · intro b hb
      simp only [List.mem_cons, List.not_mem_nil, or_false] at hb
      rcases hb with h | h <;> omega
    · split
      · intro b hb
        simp only [List.mem_cons, List.not_mem_nil, or_false] at hb
        rcases hb with h | h | h <;> omega
      · intro b hb
        simp only [List.mem_cons, List.not_mem_nil, or_false] at hb
        rcases hb with h | h | h | h <;> omega

theorem utf8Encode_isBytes (s : List Char) : isBytes (utf8Encode s) := by
  intro b hb
  simp only [utf8Encode, List.mem_flatten, List.mem_map] at hb
  obtain ⟨l, ⟨c, _, rfl⟩, hbl⟩ := hb
  exact utf8EncodeChar_isBytes c b hbl

theorem utf8EncodeChar_ne_nil (c : Char) : utf8EncodeChar c ≠ [] := by
  unfold utf8EncodeChar
  split
  · simp
  · split
    · simp
    · split <;> simp

theorem utf8DecodeOne_encodeChar (c : Char) (bs : List Nat) :
    utf8DecodeOne (utf8EncodeChar c ++ bs) = some (c, bs) := by
  have hvalid := char_toNat_valid c
  have hlt := char_toNat_lt c
  unfold utf8EncodeChar
  split
  · rename_i h1
    show utf8DecodeOne (c.toNat :: bs) = _
    simp only [utf8DecodeOne]
    rw [if_pos h1, Char.ofNat_toNat c]
  · rename_i h1
    split
    · rename_i h2
      show utf8DecodeOne (_ :: _ :: bs) = _
      simp only [utf8DecodeOne]
      rw [if_neg (by omega), if_neg (by omega), if_pos (by omega)]
      rw [if_pos (by constructor <;> omega)]
      have hn : (0xC0 + c.toNat / 64 - 0xC0) * 64 + (0x80 + c.toNat % 64 - 0x80) = c.toNat := by
        omega
      rw [hn, if_pos hvalid, Char.ofNat_toNat c]
    · rename_i h2
      split
      · rename_i h3
        show utf8DecodeOne (_ :: _ :: _ :: bs) = _
        simp only [utf8DecodeOne]
        rw [if_neg (by omega), if_neg (by omega), if_neg (by omega), if_pos (by omega)]
        rw [if_pos (by refine ⟨⟨by omega, by omega⟩, by omega, by omega⟩)]
        have hn : (0xE0 + c.toNat / 4096 - 0xE0) * 4096
            + (0x80 + c.toNat / 64 % 64 - 0x80) * 64 + (0x80 + c.toNat % 64 - 0x80)
            = c.toNat := by omega
        rw [hn, if_pos hvalid, Char.ofNat_toNat c]
      · rename_i h3
        show utf8DecodeOne (_ :: _ :: _ :: _ :: bs) = _
        simp only [utf8DecodeOne]
        rw [if_neg (by omega), if_neg (by omega), if_neg (by omega), if_neg (by omega),
          if_pos (by omega)]
        rw [if_pos (by refine ⟨⟨by omega, by omega⟩, ⟨by omega, by omega⟩, by omega, by omega⟩)]
        have hn : (0xF0 + c.toNat / 262144 - 0xF0) * 262144
            + (0x80 + c.toNat / 4096 % 64 - 0x80) * 4096
            + (0x80 + c.toNat / 64 % 64 - 0x80) * 64 + (0x80 + c.toNat % 64 - 0x80)
            = c.toNat := by omega
        rw [hn, if_pos hvalid, Char.ofNat_toNat c]

theorem utf8DecodeLoop_encode (s : List Char) (fuel : Nat)
    (h : (utf8Encode s).length ≤ fuel) :
    utf8DecodeLoop fuel (utf8Encode s) = some s := by
  induction s generalizing fuel with
  | nil =>
    show utf8DecodeLoop fuel [] = some []
    cases fuel <;> rfl
  | cons c cs ih =>
    have henc : utf8Encode (c :: cs) = utf8EncodeChar c ++ utf8Encode cs := by
      simp [utf8Encode]
    rw [henc] at h ⊢
    obtain ⟨b0, tl, hb⟩ : ∃ b0 tl, utf8EncodeChar c ++ utf8Encode cs = b0 :: tl := by
      cases hcc : utf8EncodeChar c with
      | nil => exact absurd hcc (utf8EncodeChar_ne_nil c)
      | cons x xs => exact ⟨x, xs ++ utf8Encode cs, by simp [hcc]⟩
    have hlen1 : 1 ≤ (utf8EncodeChar c).length := by
      cases hcc : utf8EncodeChar c with
      | nil => exact absurd hcc (utf8EncodeChar_ne_nil c)
      | cons x xs => simp [hcc]
    cases fuel with
    | zero =>
      exfalso
      rw [List.length_append] at h
      omega
    | succ f =>
      rw [hb]
      show utf8DecodeLoop (f + 1) (b0 :: tl) = _
      rw [utf8DecodeLoop, ← hb, utf8DecodeOne_encodeChar]
      simp only [ih f (by rw [List.length_append] at h; omega)]

theorem utf8Decode_utf8Encode (s : List Char) :
    utf8Decode (utf8Encode s) = some s :=
  utf8DecodeLoop_encode s (utf8Encode s).length (Nat.le_refl _)

/-! ### Decimal integers (Go `strconv` as used by `encoding/json`)

Modelled from the spec: `json.Marshal` prints integer values in plain
decimal (optionally with a leading minus sign) and the scanner reads a
digit run back.  The model's JSON numbers are integers; floating-point
values are outside the embedding (a spec §4.2 numeric-collapse caveat). -/

theorem char_toNat_ofNat {n : Nat} (h : Nat.isValidChar n) :
    (Char.ofNat n).toNat = n := by
  unfold Char.ofNat
  rw [dif_pos h]
  rfl

def digitChar (d : Nat) : Char := Char.ofNat (48 + d)

theorem digitChar_toNat {d : Nat} (h : d < 10) : (digitChar d).toNat = 48 + d := by
  unfold digitChar
  exact char_toNat_ofNat (Or.inl (by omega))

def natDecAux : Nat → Nat → List Char
  | 0, _ => []
  | fuel + 1, n =>
    if n < 10 then [digitChar n] else natDecAux fuel (n / 10) ++ [digitChar (n % 10)]

/-- Decimal digits of a natural number (the fuel argument of the auxiliary
loop only bounds recursion depth). -/
def natDec (n : Nat) : List Char := natDecAux (n + 1) n

theorem natDecAux_succ (fuel n : Nat) :
    natDecAux (fuel + 1) n
      = if n < 10 then [digitChar n] else natDecAux fuel (n / 10) ++ [digitChar (n % 10)] := rfl

theorem natDecAux_irrel (n : Nat) : ∀ fuel fuel2 : Nat, n < fuel → n < fuel2 →
    natDecAux fuel n = natDecAux fuel2 n := by
  induction n using Nat.strong_induction_on with
  | _ n ih =>
    intro fuel fuel2 h1 h2
    obtain ⟨f, rfl⟩ : ∃ f, fuel = f + 1 := ⟨fuel - 1, by omega⟩
    obtain ⟨g, rfl⟩ : ∃ g, fuel2 = g + 1 := ⟨fuel2 - 1, by omega⟩
    rw [natDecAux_succ, natDecAux_succ]
    by_cases h : n < 10
    · rw [if_pos h, if_pos h]
    · rw [if_neg h, if_neg h]
      have hlt : n / 10 < n := Nat.div_lt_self (by omega) (by norm_num)
      rw [ih (n / 10) hlt f g (by omega) (by omega)]

theorem natDec_step (n : Nat) :
    natDec n = if n < 10 then [digitChar n] else natDec (n / 10) ++ [digitChar (n % 10)] := by
  unfold natDec
  rw [natDecAux_succ]
  by_cases h : n < 10
  · rw [if_pos h, if_pos h]
  · rw [if_neg h, if_neg h]
    have hlt : n / 10 < n := Nat.div_lt_self (by omega) (by norm_num)
    rw [natDecAux_irrel (n / 10) n (n / 10 + 1) (by omega) (by omega)]

def intDec (n : Int) : List Char :=
  if n < 0 then '-' :: natDec (-n).toNat else natDec n.toNat

/-- One char is a decimal digit. -/
def isDigitC (c : Char) : Prop := 48 ≤ c.toNat ∧ c.toNat ≤ 57

instance (c : Char) : Decidable (isDigitC c) := by unfold isDigitC; infer_instance

/-- The digit-run scanner: consume leading digits into an accumulator. -/
def parseNatAux (acc : Nat) : List Char → Nat × List Char
  | [] => (acc, [])
  | c :: rest =>
    if isDigitC c then parseNatAux (acc * 10 + (c.toNat - 48)) rest else (acc, c :: rest)

/-- A digit run: at least one leading digit, then the longest digit run. -/
def parseNatPart : List Char → Option (Nat × List Char)
  | [] => none
  | c :: rest => if isDigitC c then some (parseNatAux 0 (c :: rest)) else none

/-- The next char (if any) is not a digit, so a digit run stops here. -/
def headNotDigit : List Char → Prop
  | [] => True
  | c :: _ => ¬ isDigitC c

instance (l : List Char) : Decidable (headNotDigit l) := by
  unfold headNotDigit; cases l <;> infer_instance

theorem parseNatAux_stop (acc : Nat) (l : List Char) (h : headNotDigit l) :
    parseNatAux acc l = (acc, l) := by
  cases l with
  | nil => rfl
  | cons c rest =>
    unfold parseNatAux
    rw [if_neg h]

theorem natDec_ne_nil (n : Nat) : natDec n ≠ [] := by
  rw [natDec_step]
  split <;> simp

theorem natDec_all_digits (n : Nat) : ∀ c ∈ natDec n, isDigitC c := by
  induction n using Nat.strong_induction_on with
  | _ n ih =>
    intro c hc
    rw [natDec_step] at hc
    by_cases h : n < 10
    · rw [if_pos h] at hc
      simp only [List.mem_singleton] at hc
      subst hc
      constructor <;> rw [digitChar_toNat (by omega)] <;> omega
    · rw [if_neg h] at hc
      rw [List.mem_append] at hc
      rcases hc with h1 | h1
      · exact ih (n / 10) (Nat.div_lt_self (by omega) (by norm_num)) c h1
      · simp only [List.mem_singleton] at h1
        subst h1
        have hm : n % 10 < 10 := Nat.mod_lt _ (by norm_num)
        constructor <;> rw [digitChar_toNat hm] <;> omega

theorem parseNatAux_cons (acc : Nat) (c : Char) (rest : List Char) :
    parseNatAux acc (c :: rest)
      = if isDigitC c then parseNatAux (acc * 10 + (c.toNat - 48)) rest
        else (acc, c :: rest) := rfl

theorem parseNatAux_natDec (n : Nat) : ∀ (acc : Nat) (rest : List Char),
    parseNatAux acc (natDec n ++ rest)
      = parseNatAux (acc * 10 ^ (natDec n).length + n) rest := by
  induction n using Nat.strong_induction_on with
  | _ n ih =>
    intro acc rest
    by_cases h : n < 10
    · have hDec : natDec n = [digitChar n] := by
        rw [natDec_step, if_pos h]
      rw [hDec]
      show parseNatAux acc (digitChar n :: rest) = _
      rw [parseNatAux_cons,
        if_pos (show isDigitC (digitChar n) by
          constructor <;> rw [digitChar_toNat h] <;> omega)]
      rw [digitChar_toNat h, List.length_singleton, pow_one]
      have harg : acc * 10 + (48 + n - 48) = acc * 10 + n := by omega
      rw [harg]
    · have hDec : natDec n = natDec (n / 10) ++ [digitChar (n % 10)] := by
        rw [natDec_step, if_neg h]
      rw [hDec, List.append_assoc,
        ih (n / 10) (Nat.div_lt_self (by omega) (by norm_num))]
      have hm : n % 10 < 10 := Nat.mod_lt _ (by norm_num)
      show parseNatAux _ (digitChar (n % 10) :: rest) = _
      rw [parseNatAux_cons,
        if_pos (show isDigitC (digitChar (n % 10)) by
          constructor <;> rw [digitChar_toNat hm] <;> omega)]
      rw [digitChar_toNat hm, List.length_append, List.length_singleton, pow_succ,
        ← mul_assoc]
      have harg : ∀ k : Nat, (k + n / 10) * 10 + (48 + n % 10 - 48) = k * 10 + n := by
        intro k
        omega
      rw [harg (acc * 10 ^ (natDec (n / 10)).length)]

theorem parseNatPart_natDec (n : Nat) (rest : List Char) (h : headNotDigit rest) :
    parseNatPart (natDec n ++ rest) = some (n, rest) := by
  obtain ⟨d, ds, hds⟩ : ∃ d ds, natDec n = d :: ds := by
    cases hd : natDec n with
    | nil => exact absurd hd (natDec_ne_nil n)
    | cons d ds => exact ⟨d, ds, rfl⟩
  have hdig : isDigitC d := natDec_all_digits n d (by rw [hds]; simp)
  rw [hds]
  show parseNatPart (d :: (ds ++ rest)) = _
  simp only [parseNatPart]
  rw [if_pos hdig]
  have hsame : d :: (ds ++ rest) = natDec n ++ rest := by rw [hds]; rfl
  rw [hsame, parseNatAux_natDec, Nat.zero_mul, Nat.zero_add, parseNatAux_stop _ _ h]

/-! ### The JSON data model

Modelled from the spec: `encoding/json` is not part of the repository.  Per
the spec (§4.2, §9) the canonical encoding covers a generic tree of null,
bool, number, string, sequence and string-keyed-mapping nodes.  Numbers are
modelled as integers (floating point is outside the embedding; the spec
§4.2 explicitly accepts numeric-type collapse).  Mappings are association
lists in canonical (Go map) form: strictly sorted, duplicate-free keys. -/

inductive Json where
  | null : Json
  | bool : Bool → Json
  | num : Int → Json
  | str : String → Json
  | arr : List Json → Json
  | obj : List (String × Json) → Json

def quoteC : Char := Char.ofNat 34

def backslashC : Char := Char.ofNat 92

def lbraceC : Char := Char.ofNat 123

def rbraceC : Char := Char.ofNat 125

def hexDigitChar (d : Nat) : Char :=
  if d < 10 then Char.ofNat (48 + d) else Char.ofNat (87 + d)

/-- A `\uXXXX` escape (lowercase hex, as Go's encoder emits). -/
def uEsc (n : Nat) : List Char :=
  [backslashC, 'u', hexDigitChar (n / 4096 % 16), hexDigitChar (n / 256 % 16),
    hexDigitChar (n / 16 % 16), hexDigitChar (n % 16)]

/-- Go `encoding/json` string escaping (default encoder: quote, backslash,
the three HTML characters, control characters, U+2028/U+2029). -/
def escapeChar (c : Char) : List Char :=
  if c = quoteC then [backslashC, quoteC]
  else if c = backslashC then [backslashC, backslashC]
  else if c.toNat = 10 then [backslashC, 'n']
  else if c.toNat = 13 then [backslashC, 'r']
  else if c.toNat = 9 then [backslashC, 't']
  else if c.toNat < 32 then uEsc c.toNat
  else if c.toNat = 60 ∨ c.toNat = 62 ∨ c.toNat = 38 then uEsc c.toNat
  else if c.toNat = 8232 ∨ c.toNat = 8233 then uEsc c.toNat
  else [c]

def escapeStr (s : List Char) : List Char := (s.map escapeChar).flatten

/-- A JSON string literal: quote, escaped content, quote. -/
def strLit (s : String) : List Char := quoteC :: (escapeStr s.data ++ [quoteC])

mutual

/-- Compact JSON printing, as `json.Marshal` emits it (no whitespace;
object fields in stored order, which for canonical values is Go's sorted
map-key order). -/
def jsonPrint : Json → List Char
  | .null => 'n' :: 'u' :: 'l' :: ['l']
  | .bool true => 't' :: 'r' :: 'u' :: ['e']
  | .bool false => 'f' :: 'a' :: 'l' :: 's' :: ['e']
  | .num n => intDec n
  | .str s => strLit s
  | .arr es => '[' :: (printElems es ++ [']'])
  | .obj fs => lbraceC :: (printFields fs ++ [rbraceC])

def printElems : List Json → List Char
  | [] => []
  | [e] => jsonPrint e
  | e :: es => jsonPrint e ++ ',' :: printElems es

def printFields : List (String × Json) → List Char
  | [] => []
  | [(k, v)] => strLit k ++ ':' :: jsonPrint v
  | (k, v) :: fs => strLit k ++ ':' :: jsonPrint v ++ ',' :: printFields fs

end

mutual

/-- Parser fuel adequate for a value (counts grammar nodes, not leaves). -/
def jsonFuel : Json → Nat
  | .null => 1
  | .bool _ => 1
  | .num _ => 1
  | .str _ => 1
  | .arr es => 1 + fuelElems es
  | .obj fs => 1 + fuelFields fs

def fuelElems : List Json → Nat
  | [] => 1
  | e :: es => 1 + jsonFuel e + fuelElems es

def fuelFields : List (String × Json) → Nat
  | [] => 1
  | (_, v) :: fs => 1 + jsonFuel v + fuelFields fs

end

/-! ### JSON parsing (Go `encoding/json` decoder)

Modelled from the spec: a recursive-descent reader of the compact grammar
the encoder above emits.  Go's scanner additionally skips whitespace
between tokens and accepts fraction/exponent number forms; neither is
exercised by this development (the decoder only ever runs on compact
integer-valued output of the encoder). -/

def parseHexDigit (c : Char) : Option Nat :=
  if 48 ≤ c.toNat ∧ c.toNat ≤ 57 then some (c.toNat - 48)
  else if 97 ≤ c.toNat ∧ c.toNat ≤ 102 then some (c.toNat - 87)
  else if 65 ≤ c.toNat ∧ c.toNat ≤ 70 then some (c.toNat - 55)
  else none

/-- Decode one simple (single-letter) string escape. -/
def escDecode (e : Char) : Option Char :=
  if e = quoteC then some quoteC
  else if e = backslashC then some backslashC
  else if e = '/' then some '/'
  else if e = 'b' then some (Char.ofNat 8)
  else if e = 'f' then some (Char.ofNat 12)
  else if e = 'n' then some (Char.ofNat 10)
  else if e = 'r' then some (Char.ofNat 13)
  else if e = 't' then some (Char.ofNat 9)
  else none

/-- Decode the value of a `\uXXXX` escape.  Values that are not valid
scalar values decode to U+FFFD (Go's replacement-character behaviour). -/
def escUnicode (n : Nat) : Char :=
  if Nat.isValidChar n then Char.ofNat n else Char.ofNat 0xFFFD

/-- One step of string-body decoding: the closing quote (`some (none, rest)`),
one decoded character (`some (some c, rest)`), or a syntax error. -/
def strChunk : List Char → Option (Option Char × List Char)
  | [] => none
  | c :: rest =>
    if c = quoteC then some (none, rest)
    else if c = backslashC then
      match rest with
      | [] => none
      | e :: rest1 =>
        if e = 'u' then
          match rest1 with
          | h1 :: h2 :: h3 :: h4 :: rest2 =>
            match parseHexDigit h1, parseHexDigit h2, parseHexDigit h3, parseHexDigit h4 with
            | some d1, some d2, some d3, some d4 =>
              some (some (escUnicode (d1 * 4096 + d2 * 256 + d3 * 16 + d4)), rest2)
            | _, _, _, _ => none
          | _ => none
        else
          match escDecode e with
          | some d => some (some d, rest1)
          | none => none
    else if c.toNat < 32 then none
    else some (some c, rest)

def parseStringLoop : Nat → List Char → Option (List Char × List Char)
  | 0, _ => none
  | fuel + 1, s =>
    match strChunk s with
    | some (none, rest) => some ([], rest)
    | some (some c, rest) =>
      match parseStringLoop fuel rest with
      | some (cs, r) => some (c :: cs, r)
      | none => none
    | none => none

/-- Decode a string body after the opening quote, up to and past the
closing quote. -/
def parseStringBody (s : List Char) : Option (List Char × List Char) :=
  parseStringLoop s.length s

/-- Continuation: wrap a parsed string body as a JSON string value. -/
def parseStrCont : Option (List Char × List Char) → Option (Json × List Char)
  | some (s, rest1) => some (Json.str (String.mk s), rest1)
  | none => none

/-- Continuation: wrap a parsed digit run as a JSON number. -/
def parseNumCont (neg : Bool) : Option (Nat × List Char) → Option (Json × List Char)
  | some (m, rest1) => some (Json.num (if neg then -(m : Int) else (m : Int)), rest1)
  | none => none

def parseNullBody : List Char → Option (Json × List Char)
  | 'u' :: 'l' :: 'l' :: rest => some (Json.null, rest)
  | _ => none

def parseTrueBody : List Char → Option (Json × List Char)
  | 'r' :: 'u' :: 'e' :: rest => some (Json.bool true, rest)
  | _ => none

def parseFalseBody : List Char → Option (Json × List Char)
  | 'a' :: 'l' :: 's' :: 'e' :: rest => some (Json.bool false, rest)
  | _ => none

/-- Continuation: wrap parsed array elements. -/
def arrCont : Option (List Json × List Char) → Option (Json × List Char)
  | some (es, rest1) => some (Json.arr es, rest1)
  | none => none

/-- Continuation: wrap parsed object fields. -/
def objCont : Option (List (String × Json) × List Char) → Option (Json × List Char)
  | some (fs, rest2) => some (Json.obj fs, rest2)
  | none => none

/-- Continuation: prepend an element to a parsed element-list tail. -/
def elemCons (v : Json) : Option (List Json × List Char) → Option (List Json × List Char)
  | some (es, r) => some (v :: es, r)
  | none => none

/-- Continuation: prepend a field to a parsed field-list tail. -/
def fieldCons (k : String) (v : Json) :
    Option (List (String × Json) × List Char) → Option (List (String × Json) × List Char)
  | some (fs, r) => some ((k, v) :: fs, r)
  | none => none

/-- An object key: quote, string body, colon. -/
def fieldKey : List Char → Option (String × List Char)
  | [] => none
  | c :: rest =>
    if c = quoteC then
      match parseStringBody rest with
      | some (k, ':' :: rest2) => some (String.mk k, rest2)
      | _ => none
    else none

mutual

def parseValue : Nat → List Char → Option (Json × List Char)
  | 0, _ => none
  | _ + 1, [] => none
  | fuel + 1, c :: rest =>
    if c = 'n' then parseNullBody rest
    else if c = 't' then parseTrueBody rest
    else if c = 'f' then parseFalseBody rest
    else if c = quoteC then parseStrCont (parseStringBody rest)
    else if c = '-' then parseNumCont true (parseNatPart rest)
    else if isDigitC c then parseNumCont false (parseNatPart (c :: rest))
    else if c = '[' then
      match rest with
      | ']' :: rest1 => some (Json.arr [], rest1)
      | _ => arrCont (parseElems fuel rest)
    else if c = lbraceC then
      match rest with
      | [] => none
      | r :: rest1 =>
        if r = rbraceC then some (Json.obj [], rest1)
        else objCont (parseFields fuel (r :: rest1))
    else none

def parseElems : Nat → List Char → Option (List Json × List Char)
  | 0, _ => none
  | fuel + 1, input =>
    match parseValue fuel input with
    | some (v, rest) =>
      match rest with
      | ',' :: rest1 => elemCons v (parseElems fuel rest1)
      | ']' :: rest1 => some ([v], rest1)
      | _ => none
    | none => none

def parseFields : Nat → List Char → Option (List (String × Json) × List Char)
  | 0, _ => none
  | fuel + 1, input =>
    match fieldKey input with
    | some (k, rest2) =>
      match parseValue fuel rest2 with
      | some (v, rest3) =>
        match rest3 with
        | ',' :: rest4 => fieldCons k v (parseFields fuel rest4)
        | r :: rest4 => if r = rbraceC then some ([(k, v)], rest4) else none
        | [] => none
      | none => none
    | none => none

end

/-- Parse a complete JSON document: one value consuming the whole input
(this is Go's `checkValid` + decode in one step). -/
def jsonParse (s : List Char) : Option Json :=
  match parseValue (2 * s.length + 2) s with
  | some (v, []) => some v
  | _ => none

theorem parseHexDigit_hexDigitChar : ∀ d, d < 16 → parseHexDigit (hexDigitChar d) = some d := by
  decide

theorem strChunk_quote (tl : List Char) : strChunk (quoteC :: tl) = some (none, tl) := by
  rw [strChunk.eq_def]
  simp

theorem strChunk_uEsc (c : Char) (tl : List Char) (hlt : c.toNat < 65536)
    (hval : c.toNat < 55296) :
    strChunk (uEsc c.toNat ++ tl) = some (some c, tl) := by
  have e1 : parseHexDigit (hexDigitChar (c.toNat / 4096 % 16)) = some (c.toNat / 4096 % 16) :=
    parseHexDigit_hexDigitChar _ (Nat.mod_lt _ (by norm_num))
  have e2 : parseHexDigit (hexDigitChar (c.toNat / 256 % 16)) = some (c.toNat / 256 % 16) :=
    parseHexDigit_hexDigitChar _ (Nat.mod_lt _ (by norm_num))
  have e3 : parseHexDigit (hexDigitChar (c.toNat / 16 % 16)) = some (c.toNat / 16 % 16) :=
    parseHexDigit_hexDigitChar _ (Nat.mod_lt _ (by norm_num))
  have e4 : parseHexDigit (hexDigitChar (c.toNat % 16)) = some (c.toNat % 16) :=
    parseHexDigit_hexDigitChar _ (Nat.mod_lt _ (by norm_num))
  have hn : c.toNat / 4096 % 16 * 4096 + c.toNat / 256 % 16 * 256
      + c.toNat / 16 % 16 * 16 + c.toNat % 16 = c.toNat := by omega
  have hesc : escUnicode c.toNat = c := by
    unfold escUnicode
    rw [if_pos (Or.inl hval), Char.ofNat_toNat]
  have hq : ¬ (backslashC = quoteC) := by decide
  show strChunk (backslashC :: 'u' :: _ :: _ :: _ :: _ :: tl) = _
  rw [strChunk.eq_def]
  simp [hq, e1, e2, e3, e4, hn, hesc]

theorem strChunk_escDecode (c e : Char) (tl : List Char)
    (hne : ¬ e = 'u') (hd : escDecode e = some c) :
    strChunk (backslashC :: e :: tl) = some (some c, tl) := by
  have hq : ¬ (backslashC = quoteC) := by decide
  rw [strChunk.eq_def]
  simp [hq, hne, hd]

theorem strChunk_escapeChar (c : Char) (tl : List Char) :
    strChunk (escapeChar c ++ tl) = some (some c, tl) := by
  unfold escapeChar
  split
  · rename_i h
    subst h
    exact strChunk_escDecode _ _ _ (by decide) (by decide)
  · split
    · rename_i h
      subst h
      exact strChunk_escDecode _ _ _ (by decide) (by decide)
    · split
      · rename_i h
        have hc : c = Char.ofNat 10 := by rw [← Char.ofNat_toNat c, h]
        subst hc
        exact strChunk_escDecode _ _ _ (by decide) (by decide)
      · split
        · rename_i h
          have hc : c = Char.ofNat 13 := by rw [← Char.ofNat_toNat c, h]
          subst hc
          exact strChunk_escDecode _ _ _ (by decide) (by decide)
        · split
          · rename_i h
            have hc : c = Char.ofNat 9 := by rw [← Char.ofNat_toNat c, h]
            subst hc
            exact strChunk_escDecode _ _ _ (by decide) (by decide)
          · split
            · rename_i h
              exact strChunk_uEsc c tl (by omega) (by omega)
            · split
              · rename_i h
                refine strChunk_uEsc c tl (by omega) (by omega)
              · split
                · rename_i h
                  refine strChunk_uEsc c tl (by omega) (by omega)
                · rename_i h1 h2 h3 h4 h5 h6 h7 h8
                  show strChunk (c :: tl) = _
                  rw [strChunk.eq_def]
                  simp only
                  rw [if_neg h1, if_neg h2, if_neg (by omega)]

theorem escapeChar_ne_nil (c : Char) : escapeChar c ≠ [] := by
  unfold escapeChar
  repeat' split
  all_goals simp [uEsc]

theorem parseStringLoop_escapeStr (s : List Char) : ∀ (fuel : Nat) (rest : List Char),
    (escapeStr s).length + 1 ≤ fuel →
    parseStringLoop fuel (escapeStr s ++ quoteC :: rest) = some (s, rest) := by
  induction s with
  | nil =>
    intro fuel rest h
    have h1 : 1 ≤ fuel := le_trans (by simp [escapeStr]) h
    obtain ⟨f, rfl⟩ : ∃ f, fuel = f + 1 := ⟨fuel - 1, by omega⟩
    show parseStringLoop (f + 1) (quoteC :: rest) = _
    rw [parseStringLoop, strChunk_quote]
  | cons c cs ih =>
    intro fuel rest h
    have hs : escapeStr (c :: cs) = escapeChar c ++ escapeStr cs := by
      simp [escapeStr]
    rw [hs] at h ⊢
    have hec : 1 ≤ (escapeChar c).length := by
      cases hcc : escapeChar c with
      | nil => exact absurd hcc (escapeChar_ne_nil c)
      | cons x xs => simp
    obtain ⟨f, rfl⟩ : ∃ f, fuel = f + 1 := by
      refine ⟨fuel - 1, ?hf⟩
      rw [List.length_append] at h
      omega
    rw [List.append_assoc]
    obtain ⟨b0, tl, hb⟩ : ∃ b0 tl, escapeChar c ++ (escapeStr cs ++ quoteC :: rest) = b0 :: tl := by
      cases hcc : escapeChar c with
      | nil => exact absurd hcc (escapeChar_ne_nil c)
      | cons x xs => exact ⟨x, xs ++ (escapeStr cs ++ quoteC :: rest), by simp [hcc]⟩
    rw [hb]
    show parseStringLoop (f + 1) (b0 :: tl) = _
    rw [parseStringLoop, ← hb, strChunk_escapeChar]
    simp only [ih f rest (by rw [List.length_append] at h; omega)]

theorem parseStringBody_escapeStr (s : List Char) (rest : List Char) :
    parseStringBody (escapeStr s ++ quoteC :: rest) = some (s, rest) := by
  unfold parseStringBody
  refine parseStringLoop_escapeStr s _ rest ?hf
  rw [List.length_append]
  simp

theorem parseValue_succ_cons (fuel : Nat) (c : Char) (rest : List Char) :
    parseValue (fuel + 1) (c :: rest)
      = if c = 'n' then parseNullBody rest
        else if c = 't' then parseTrueBody rest
        else if c = 'f' then parseFalseBody rest
        else if c = quoteC then parseStrCont (parseStringBody rest)
        else if c = '-' then parseNumCont true (parseNatPart rest)
        else if isDigitC c then parseNumCont false (parseNatPart (c :: rest))
        else if c = '[' then
          match rest with
          | ']' :: rest1 => some (Json.arr [], rest1)
          | _ => arrCont (parseElems fuel rest)
        else if c = lbraceC then
          match rest with
          | [] => none
          | r :: rest1 =>
            if r = rbraceC then some (Json.obj [], rest1)
            else objCont (parseFields fuel (r :: rest1))
        else none := rfl

theorem parseElems_succ (fuel : Nat) (input : List Char) :
    parseElems (fuel + 1) input
      = match parseValue fuel input with
        | some (v, rest) =>
          match rest with
          | ',' :: rest1 => elemCons v (parseElems fuel rest1)
          | ']' :: rest1 => some ([v], rest1)
          | _ => none
        | none => none := rfl

theorem parseFields_succ (fuel : Nat) (input : List Char) :
    parseFields (fuel + 1) input
      = match fieldKey input with
        | some (k, rest2) =>
          match parseValue fuel rest2 with
          | some (v, rest3) =>
            match rest3 with
            | ',' :: rest4 => fieldCons k v (parseFields fuel rest4)
            | r :: rest4 => if r = rbraceC then some ([(k, v)], rest4) else none
            | [] => none
          | none => none
        | none => none := rfl

/-- The decimal digits of an integer start with a minus sign or a digit. -/
theorem intDec_head (n : Int) :
    ∃ c cs, intDec n = c :: cs ∧ (c = '-' ∨ isDigitC c) := by
  unfold intDec
  split
  · exact ⟨'-', natDec (-n).toNat, rfl, Or.inl rfl⟩
  · obtain ⟨d, ds, hds⟩ : ∃ d ds, natDec n.toNat = d :: ds := by
      cases hd : natDec n.toNat with
      | nil => exact absurd hd (natDec_ne_nil _)
      | cons d ds => exact ⟨d, ds, rfl⟩
    exact ⟨d, ds, hds, Or.inr (natDec_all_digits _ d (by rw [hds]; simp))⟩

/-- Every printed JSON value is nonempty, and its first character is never
the array terminator. -/
theorem jsonPrint_head (v : Json) :
    ∃ c cs, jsonPrint v = c :: cs ∧ ¬ c = ']' := by
  cases v with
  | null => exact ⟨'n', _, rfl, by decide⟩
  | bool b =>
    cases b with
    | true => exact ⟨'t', _, rfl, by decide⟩
    | false => exact ⟨'f', _, rfl, by decide⟩
  | num n =>
    obtain ⟨c, cs, hcs, hc⟩ := intDec_head n
    refine ⟨c, cs, hcs, ?hne⟩
    rcases hc with h | h
    · subst h; decide
    · intro habs
      subst habs
      revert h
      decide
  | str s => exact ⟨quoteC, _, rfl, by decide⟩
  | arr es => exact ⟨'[', _, rfl, by decide⟩
  | obj fs => exact ⟨lbraceC, _, rfl, by decide⟩

theorem jsonFuel_pos (v : Json) : 1 ≤ jsonFuel v := by
  cases v <;> simp [jsonFuel]

theorem fuelElems_pos (es : List Json) : 1 ≤ fuelElems es := by
  cases es <;> simp [fuelElems] <;> omega

theorem fuelFields_pos (fs : List (String × Json)) : 1 ≤ fuelFields fs := by
  cases fs with
  | nil => simp [fuelFields]
  | cons f fs =>
    obtain ⟨k, v⟩ := f
    simp [fuelFields]
    omega

theorem stringMkData (s : String) : String.mk s.data = s := rfl

theorem headNotDigit_cons {c : Char} (h : ¬ isDigitC c) (l : List Char) :
    headNotDigit (c :: l) := h

theorem digit_not_keyword {c : Char} (h : isDigitC c) :
    ¬ c = 'n' ∧ ¬ c = 't' ∧ ¬ c = 'f' ∧ ¬ c = quoteC ∧ ¬ c = '-' := by
  obtain ⟨h1, h2⟩ := h
  refine ⟨?n, ?t, ?f, ?q, ?m⟩ <;>
    · intro habs
      subst habs
      revert h1 h2
      decide

theorem fieldKey_cons (c : Char) (rest : List Char) :
    fieldKey (c :: rest)
      = if c = quoteC then
          match parseStringBody rest with
          | some (k, ':' :: rest2) => some (String.mk k, rest2)
          | _ => none
        else none := rfl

/-- Parsing inverts printing: mutual induction on fuel, covering values,
array-element lists and object-field lists simultaneously. -/
theorem parse_print_aux : ∀ fuel : Nat,
    (∀ (v : Json) (rest : List Char), jsonFuel v ≤ fuel → headNotDigit rest →
      parseValue fuel (jsonPrint v ++ rest) = some (v, rest))
    ∧ (∀ (e : Json) (es : List Json) (rest : List Char),
        fuelElems (e :: es) ≤ fuel →
        parseElems fuel (printElems (e :: es) ++ ']' :: rest) = some (e :: es, rest))
    ∧ (∀ (k : String) (v : Json) (fs : List (String × Json)) (rest : List Char),
        fuelFields ((k, v) :: fs) ≤ fuel →
        parseFields fuel (printFields ((k, v) :: fs) ++ rbraceC :: rest)
          = some ((k, v) :: fs, rest)) := by
  intro fuel
  induction fuel with
  | zero =>
    refine ⟨?A0, ?B0, ?C0⟩
    · intro v rest hf
      have := jsonFuel_pos v
      omega
    · intro e es rest hf
      have := fuelElems_pos (e :: es)
      omega
    · intro k v fs rest hf
      have := fuelFields_pos ((k, v) :: fs)
      omega
  | succ f ih =>
    obtain ⟨ihA, ihB, ihC⟩ := ih
    have hA : ∀ (v : Json) (rest : List Char), jsonFuel v ≤ f + 1 → headNotDigit rest →
        parseValue (f + 1) (jsonPrint v ++ rest) = some (v, rest) := by
      intro v rest hf hnd
      cases v with
      | null =>
        show parseValue (f + 1) ('n' :: 'u' :: 'l' :: 'l' :: rest) = _
        rw [parseValue_succ_cons, if_pos rfl]
        rfl
      | bool b =>
        cases b with
        | true =>
          show parseValue (f + 1) ('t' :: 'r' :: 'u' :: 'e' :: rest) = _
          rw [parseValue_succ_cons, if_neg (by decide), if_pos rfl]
          rfl
        | false =>
          show parseValue (f + 1) ('f' :: 'a' :: 'l' :: 's' :: 'e' :: rest) = _
          rw [parseValue_succ_cons, if_neg (by decide), if_neg (by decide), if_pos rfl]
          rfl
      | num n =>
        show parseValue (f + 1) (intDec n ++ rest) = _
        by_cases hn : n < 0
        · have hid : intDec n = '-' :: natDec (-n).toNat := by
            unfold intDec
            rw [if_pos hn]
          rw [hid]
          show parseValue (f + 1) ('-' :: (natDec (-n).toNat ++ rest)) = _
          rw [parseValue_succ_cons, if_neg (by decide), if_neg (by decide),
            if_neg (by decide), if_neg (by decide), if_pos rfl]
          rw [parseNatPart_natDec _ _ hnd]
          show some (Json.num (-((-n).toNat : Int)), rest) = _
          have hcast : -(((-n).toNat : Nat) : Int) = n := by omega
          rw [hcast]
        · have hid : intDec n = natDec n.toNat := by
            unfold intDec
            rw [if_neg hn]
          rw [hid]
          obtain ⟨d, ds, hds⟩ : ∃ d ds, natDec n.toNat = d :: ds := by
            cases hd : natDec n.toNat with
            | nil => exact absurd hd (natDec_ne_nil _)
            | cons d ds => exact ⟨d, ds, rfl⟩
          have hdig : isDigitC d := natDec_all_digits _ d (by rw [hds]; simp)
          obtain ⟨hn1, hn2, hn3, hn4, hn5⟩ := digit_not_keyword hdig
          rw [hds]
          show parseValue (f + 1) (d :: (ds ++ rest)) = _
          rw [parseValue_succ_cons, if_neg hn1, if_neg hn2, if_neg hn3, if_neg hn4,
            if_neg hn5, if_pos hdig]
          have hback : d :: (ds ++ rest) = natDec n.toNat ++ rest := by rw [hds]; rfl
          rw [hback, parseNatPart_natDec _ _ hnd]
          show some (Json.num ((n.toNat : Nat) : Int), rest) = _
          have hcast : ((n.toNat : Nat) : Int) = n := by omega
          rw [hcast]
      | str s =>
        show parseValue (f + 1) (quoteC :: ((escapeStr s.data ++ [quoteC]) ++ rest)) = _
        rw [parseValue_succ_cons, if_neg (by decide), if_neg (by decide),
          if_neg (by decide), if_pos rfl]
        rw [List.append_assoc]
        show parseStrCont (parseStringBody (escapeStr s.data ++ (quoteC :: rest))) = _
        rw [parseStringBody_escapeStr]
        show some (Json.str (String.mk s.data), rest) = _
        rw [stringMkData]
      | arr es =>
        cases es with
        | nil =>
          show parseValue (f + 1) ('[' :: (']' :: rest)) = _
          rw [parseValue_succ_cons, if_neg (by decide), if_neg (by decide),
            if_neg (by decide), if_neg (by decide), if_neg (by decide),
            if_neg (by decide), if_pos rfl]
          rfl
        | cons e es =>
          show parseValue (f + 1) ('[' :: ((printElems (e :: es) ++ [']']) ++ rest)) = _
          rw [parseValue_succ_cons, if_neg (by decide), if_neg (by decide),
            if_neg (by decide), if_neg (by decide), if_neg (by decide),
            if_neg (by decide), if_pos rfl]
          rw [List.append_assoc, List.singleton_append]
          obtain ⟨c, cs, hcs, hne⟩ := jsonPrint_head e
          obtain ⟨tl, htl⟩ : ∃ tl, printElems (e :: es) ++ (']' :: rest) = c :: tl := by
            cases es with
            | nil =>
              refine ⟨cs ++ (']' :: rest), ?_⟩
              show jsonPrint e ++ (']' :: rest) = _
              rw [hcs]
              rfl
            | cons e2 es2 =>
              refine ⟨cs ++ (',' :: (printElems (e2 :: es2) ++ (']' :: rest))), ?_⟩
              show (jsonPrint e ++ ',' :: printElems (e2 :: es2)) ++ (']' :: rest) = _
              rw [hcs]
              simp
          rw [htl]
          split
          · rename_i heq
            exfalso
            rw [List.cons.injEq] at heq
            exact hne heq.1
          · rw [← htl]
            rw [ihB e es rest (by
              have hx : jsonFuel (Json.arr (e :: es)) = 1 + fuelElems (e :: es) := rfl
              omega)]
            rfl
      | obj fs =>
        cases fs with
        | nil =>
          show parseValue (f + 1) (lbraceC :: (rbraceC :: rest)) = _
          rw [parseValue_succ_cons, if_neg (by decide), if_neg (by decide),
            if_neg (by decide), if_neg (by decide), if_neg (by decide),
            if_neg (by decide), if_neg (by decide), if_pos rfl]
          show (if rbraceC = rbraceC then some (Json.obj [], rest) else _) = _
          rw [if_pos rfl]
        | cons kv fs =>
          obtain ⟨k, v⟩ := kv
          show parseValue (f + 1)
              (lbraceC :: ((printFields ((k, v) :: fs) ++ [rbraceC]) ++ rest)) = _
          rw [parseValue_succ_cons, if_neg (by decide), if_neg (by decide),
            if_neg (by decide), if_neg (by decide), if_neg (by decide),
            if_neg (by decide), if_neg (by decide), if_pos rfl]
          rw [List.append_assoc, List.singleton_append]
          obtain ⟨tl, htl⟩ : ∃ tl, printFields ((k, v) :: fs) ++ (rbraceC :: rest)
              = quoteC :: tl := by
            cases fs with
            | nil =>
              refine ⟨(escapeStr k.data ++ [quoteC]) ++ (':' :: jsonPrint v)
                  ++ (rbraceC :: rest), ?_⟩
              show (strLit k ++ ':' :: jsonPrint v) ++ (rbraceC :: rest) = _
              unfold strLit
              simp
            | cons f2 fs2 =>
              refine ⟨(escapeStr k.data ++ [quoteC])
                  ++ (':' :: (jsonPrint v ++ ',' :: printFields (f2 :: fs2)))
                  ++ (rbraceC :: rest), ?_⟩
              show (strLit k ++ ':' :: jsonPrint v ++ ',' :: printFields (f2 :: fs2))
                  ++ (rbraceC :: rest) = _
              unfold strLit
              simp
          rw [htl]
          show (if quoteC = rbraceC then some (Json.obj [], tl)
                else objCont (parseFields f (quoteC :: tl))) = _
          rw [if_neg (by decide), ← htl]
          rw [ihC k v fs rest (by
            have hx : jsonFuel (Json.obj ((k, v) :: fs)) = 1 + fuelFields ((k, v) :: fs) := rfl
            omega)]
          rfl
    refine ⟨hA, ?B, ?C⟩
    · intro e es rest hf
      have hstep : fuelElems (e :: es) = 1 + jsonFuel e + fuelElems es := rfl
      rw [parseElems_succ]
      cases es with
      | nil =>
        have h1 : parseValue f (printElems [e] ++ ']' :: rest) = some (e, ']' :: rest) := by
          show parseValue f (jsonPrint e ++ ']' :: rest) = _
          refine ihA e (']' :: rest) (by have := fuelElems_pos ([] : List Json); omega)
            (headNotDigit_cons (by decide) rest)
        rw [h1]
        rfl
      | cons e2 es2 =>
        have hpe : printElems (e :: e2 :: es2) ++ ']' :: rest
            = jsonPrint e ++ (',' :: (printElems (e2 :: es2) ++ ']' :: rest)) := by
          show (jsonPrint e ++ ',' :: printElems (e2 :: es2)) ++ ']' :: rest = _
          simp
        rw [hpe]
        have hstep2 : fuelElems (e2 :: es2) = 1 + jsonFuel e2 + fuelElems (e2 :: es2) - 1
            - jsonFuel e2 := by omega
        have h1 : parseValue f (jsonPrint e ++ (',' :: (printElems (e2 :: es2) ++ ']' :: rest)))
            = some (e, ',' :: (printElems (e2 :: es2) ++ ']' :: rest)) :=
          ihA e _ (by omega) (headNotDigit_cons (by decide) _)
        rw [h1]
        show elemCons e (parseElems f (printElems (e2 :: es2) ++ ']' :: rest)) = _
        rw [ihB e2 es2 rest (by omega)]
        rfl
    · intro k v fs rest hf
      have hstep : fuelFields ((k, v) :: fs) = 1 + jsonFuel v + fuelFields fs := rfl
      rw [parseFields_succ]
      cases fs with
      | nil =>
        have hpf : printFields [(k, v)] ++ rbraceC :: rest
            = quoteC :: (escapeStr k.data ++ (quoteC :: (':' :: (jsonPrint v
                ++ rbraceC :: rest)))) := by
          show (strLit k ++ ':' :: jsonPrint v) ++ rbraceC :: rest = _
          unfold strLit
          simp
        rw [hpf, fieldKey_cons, if_pos rfl]
        have hsb : parseStringBody (escapeStr k.data ++ (quoteC :: (':' :: (jsonPrint v
            ++ rbraceC :: rest)))) = some (k.data, ':' :: (jsonPrint v ++ rbraceC :: rest)) :=
          parseStringBody_escapeStr k.data _
        rw [hsb]
        show (match parseValue f (jsonPrint v ++ rbraceC :: rest) with
              | some (v', rest3) =>
                match rest3 with
                | ',' :: rest4 => fieldCons (String.mk k.data) v' (parseFields f rest4)
                | r :: rest4 =>
                  if r = rbraceC then some ([(String.mk k.data, v')], rest4) else none
                | [] => none
              | none => none) = _
        rw [ihA v (rbraceC :: rest) (by omega) (headNotDigit_cons (by decide) rest)]
        show (match rbraceC :: rest with
              | ',' :: rest4 => fieldCons (String.mk k.data) v (parseFields f rest4)
              | r :: rest4 =>
                if r = rbraceC then some ([(String.mk k.data, v)], rest4) else none
              | [] => none) = _
        split
        · rename_i heq
          exfalso
          rw [List.cons.injEq] at heq
          exact absurd heq.1 (by decide)
        · rename_i r rest4 heq
          rw [List.cons.injEq] at heq
          obtain ⟨hr, hrest⟩ := heq
          subst hr
          subst hrest
          rw [if_pos rfl, stringMkData]
        · rename_i heq
          exact absurd heq (by simp)
      | cons kv2 fs2 =>
        obtain ⟨k2, v2⟩ := kv2
        have hpf : printFields ((k, v) :: (k2, v2) :: fs2) ++ rbraceC :: rest
            = quoteC :: (escapeStr k.data ++ (quoteC :: (':' :: (jsonPrint v
                ++ (',' :: (printFields ((k2, v2) :: fs2) ++ rbraceC :: rest)))))) := by
          show (strLit k ++ ':' :: jsonPrint v ++ ',' :: printFields ((k2, v2) :: fs2))
              ++ rbraceC :: rest = _
          unfold strLit
          simp
        rw [hpf, fieldKey_cons, if_pos rfl]
        have hsb : parseStringBody (escapeStr k.data ++ (quoteC :: (':' :: (jsonPrint v
            ++ (',' :: (printFields ((k2, v2) :: fs2) ++ rbraceC :: rest))))))
            = some (k.data, ':' :: (jsonPrint v
                ++ (',' :: (printFields ((k2, v2) :: fs2) ++ rbraceC :: rest)))) :=
          parseStringBody_escapeStr k.data _
        rw [hsb]
        show (match parseValue f (jsonPrint v
                ++ (',' :: (printFields ((k2, v2) :: fs2) ++ rbraceC :: rest))) with
              | some (v', rest3) =>
                match rest3 with
                | ',' :: rest4 => fieldCons (String.mk k.data) v' (parseFields f rest4)
                | r :: rest4 =>
                  if r = rbraceC then some ([(String.mk k.data, v')], rest4) else none
                | [] => none
              | none => none) = _
        have hstep2 : fuelFields ((k2, v2) :: fs2) = 1 + jsonFuel v2 + fuelFields fs2 := rfl
        rw [ihA v _ (by omega) (headNotDigit_cons (by decide) _)]
        show fieldCons (String.mk k.data) v
            (parseFields f (printFields ((k2, v2) :: fs2) ++ rbraceC :: rest)) = _
        rw [ihC k2 v2 fs2 rest (by omega), stringMkData]
        rfl

/-- Structural induction for the nested `Json` type. -/
theorem Json.myInduction (P : Json → Prop)
    (hnull : P .null) (hbool : ∀ b, P (.bool b)) (hnum : ∀ n, P (.num n))
    (hstr : ∀ s, P (.str s))
    (harr : ∀ es, (∀ e ∈ es, P e) → P (.arr es))
    (hobj : ∀ fs, (∀ kv ∈ fs, P kv.2) → P (.obj fs)) :
    ∀ v, P v
  | .null => hnull
  | .bool b => hbool b
  | .num n => hnum n
  | .str s => hstr s
  | .arr es => harr es (fun e he =>
      Json.myInduction P hnull hbool hnum hstr harr hobj e)
  | .obj fs => hobj fs (fun kv hkv =>
      Json.myInduction P hnull hbool hnum hstr harr hobj kv.2)
termination_by v => sizeOf v
decreasing_by
  · have h1 := List.sizeOf_lt_of_mem he
    simp only [Json.arr.sizeOf_spec]
    omega
  · have h1 := List.sizeOf_lt_of_mem hkv
    have h2 : sizeOf kv.2 < sizeOf kv := by
      obtain ⟨a, b⟩ := kv
      simp only [Prod.mk.sizeOf_spec]
      omega
    simp only [Json.obj.sizeOf_spec]
    omega

theorem intDec_ne_nil (n : Int) : intDec n ≠ [] := by
  unfold intDec
  split
  · simp
  · exact natDec_ne_nil _

theorem strLit_length (s : String) : (strLit s).length = (escapeStr s.data).length + 2 := by
  unfold strLit
  simp

/-- The fuel needed for a value is at most twice its printed length. -/
theorem jsonFuel_le (v : Json) : jsonFuel v ≤ 2 * (jsonPrint v).length := by
  induction v using Json.myInduction with
  | hnull =>
    have h1 : jsonFuel Json.null = 1 := rfl
    have h2 : (jsonPrint Json.null).length = 4 := rfl
    omega
  | hbool b =>
    cases b with
    | true =>
      have h1 : jsonFuel (Json.bool true) = 1 := rfl
      have h2 : (jsonPrint (Json.bool true)).length = 4 := rfl
      omega
    | false =>
      have h1 : jsonFuel (Json.bool false) = 1 := rfl
      have h2 : (jsonPrint (Json.bool false)).length = 5 := rfl
      omega
  | hnum n =>
    have h1 : jsonFuel (Json.num n) = 1 := rfl
    have h2 : jsonPrint (Json.num n) = intDec n := rfl
    have h3 : intDec n ≠ [] := intDec_ne_nil n
    have h4 : 1 ≤ (intDec n).length := by
      cases hd : intDec n with
      | nil => exact absurd hd h3
      | cons d ds => simp
    have h5 : (jsonPrint (Json.num n)).length = (intDec n).length := by rw [h2]
    omega
  | hstr s =>
    have h1 : jsonFuel (Json.str s) = 1 := rfl
    have h2 : jsonPrint (Json.str s) = strLit s := rfl
    have h3 := strLit_length s
    have h4 : (jsonPrint (Json.str s)).length = (strLit s).length := by rw [h2]
    omega
  | harr es ihs =>
    have helems : fuelElems es ≤ 2 * (printElems es).length + 2 := by
      induction es with
      | nil =>
        have h1 : fuelElems ([] : List Json) = 1 := rfl
        have h2 : printElems ([] : List Json) = [] := rfl
        rw [h1, h2]
        simp
      | cons e es ihl =>
        have h1 : fuelElems (e :: es) = 1 + jsonFuel e + fuelElems es := rfl
        have he := ihs e (by simp)
        have ihl2 := ihl (fun x hx => ihs x (by simp [hx]))
        cases es with
        | nil =>
          have h2 : printElems [e] = jsonPrint e := rfl
          have h3 : fuelElems ([] : List Json) = 1 := rfl
          rw [h1, h2, h3]
          omega
        | cons e2 es2 =>
          have h2 : printElems (e :: e2 :: es2)
              = jsonPrint e ++ ',' :: printElems (e2 :: es2) := rfl
          rw [h1, h2]
          rw [List.length_append, List.length_cons]
          omega
    have h1 : jsonFuel (Json.arr es) = 1 + fuelElems es := rfl
    have h2 : jsonPrint (Json.arr es) = '[' :: (printElems es ++ [']']) := rfl
    rw [h1, h2]
    simp only [List.length_cons, List.length_append, List.length_singleton]
    omega
  | hobj fs ihs =>
    have hfields : fuelFields fs ≤ 2 * (printFields fs).length + 2 := by
      induction fs with
      | nil =>
        have h1 : fuelFields ([] : List (String × Json)) = 1 := rfl
        have h2 : printFields ([] : List (String × Json)) = [] := rfl
        rw [h1, h2]
        simp
      | cons kv fs ihl =>
        obtain ⟨k, v⟩ := kv
        have h1 : fuelFields ((k, v) :: fs) = 1 + jsonFuel v + fuelFields fs := rfl
        have he := ihs (k, v) (by simp)
        have ihl2 := ihl (fun x hx => ihs x (by simp [hx]))
        cases fs with
        | nil =>
          have h2 : printFields [(k, v)] = strLit k ++ ':' :: jsonPrint v := rfl
          have h3 : fuelFields ([] : List (String × Json)) = 1 := rfl
          rw [h1, h2, h3]
          rw [List.length_append, List.length_cons]
          simp only at he
          omega
        | cons kv2 fs2 =>
          have h2 : printFields ((k, v) :: kv2 :: fs2)
              = strLit k ++ ':' :: jsonPrint v ++ ',' :: printFields (kv2 :: fs2) := by
            obtain ⟨k2, v2⟩ := kv2
            rfl
          rw [h1, h2]
          rw [List.length_append, List.length_cons, List.length_append, List.length_cons]
          simp only at he
          omega
    have h1 : jsonFuel (Json.obj fs) = 1 + fuelFields fs := rfl
    have h2 : jsonPrint (Json.obj fs) = lbraceC :: (printFields fs ++ [rbraceC]) := rfl
    rw [h1, h2]
    simp only [List.length_cons, List.length_append, List.length_singleton]
    omega

/-- Full-document roundtrip: parsing inverts compact printing. -/
theorem jsonParse_jsonPrint (v : Json) : jsonParse (jsonPrint v) = some v := by
  unfold jsonParse
  have hfuel : jsonFuel v ≤ 2 * (jsonPrint v).length + 2 := by
    have := jsonFuel_le v
    omega
  have h := (parse_print_aux (2 * (jsonPrint v).length + 2)).1 v [] hfuel trivial
  rw [List.append_nil] at h
  rw [h]

/-! ### Go values and `json.Marshal` / `json.Unmarshal`

`Client.Shroud` takes `value any`.  A Go runtime value is modelled as a
tree that either lies in the JSON-serializable fragment (null, bool,
integer, string, slice, string-keyed map) or mentions one of the
unsupported kinds `encoding/json` rejects with an `UnsupportedTypeError`
(functions, channels, complex numbers). -/

inductive GoValue where
  | null : GoValue
  | boolV : Bool → GoValue
  | intV : Int → GoValue
  | strV : String → GoValue
  | sliceV : List GoValue → GoValue
  | mapV : List (String × GoValue) → GoValue
  | funcV : GoValue
  | chanV : GoValue
  | complexV : GoValue

mutual

/-- The JSON tree of a serializable Go value (`none` when the value
contains a type with no canonical representation). -/
def goToJson : GoValue → Option Json
  | .null => some .null
  | .boolV b => some (.bool b)
  | .intV n => some (.num n)
  | .strV s => some (.str s)
  | .sliceV es =>
    match goListToJson es with
    | some js => some (.arr js)
    | none => none
  | .mapV fs =>
    match goFieldsToJson fs with
    | some js => some (.obj js)
    | none => none
  | .funcV => none
  | .chanV => none
  | .complexV => none

def goListToJson : List GoValue → Option (List Json)
  | [] => some []
  | v :: vs =>
    match goToJson v, goListToJson vs with
    | some j, some js => some (j :: js)
    | _, _ => none

def goFieldsToJson : List (String × GoValue) → Option (List (String × Json))
  | [] => some []
  | (k, v) :: fs =>
    match goToJson v, goFieldsToJson fs with
    | some j, some js => some ((k, j) :: js)
    | _, _ => none

end

mutual

/-- Embed a JSON tree as a Go value (the canonical serializable values). -/
def GoValue.ofJson : Json → GoValue
  | .null => .null
  | .bool b => .boolV b
  | .num n => .intV n
  | .str s => .strV s
  | .arr es => .sliceV (GoValue.ofJsonList es)
  | .obj fs => .mapV (GoValue.ofJsonFields fs)

def GoValue.ofJsonList : List Json → List GoValue
  | [] => []
  | e :: es => GoValue.ofJson e :: GoValue.ofJsonList es

def GoValue.ofJsonFields : List (String × Json) → List (String × GoValue)
  | [] => []
  | (k, v) :: fs => (k, GoValue.ofJson v) :: GoValue.ofJsonFields fs

end

mutual

/-- The value mentions a function, channel or complex number somewhere. -/
def hasNonSerializable : GoValue → Bool
  | .null => false
  | .boolV _ => false
  | .intV _ => false
  | .strV _ => false
  | .sliceV es => hasNSList es
  | .mapV fs => hasNSFields fs
  | .funcV => true
  | .chanV => true
  | .complexV => true

def hasNSList : List GoValue → Bool
  | [] => false
  | v :: vs => hasNonSerializable v || hasNSList vs

def hasNSFields : List (String × GoValue) → Bool
  | [] => false
  | (_, v) :: fs => hasNonSerializable v || hasNSFields fs

end

theorem goToJson_ofJson : ∀ j : Json, goToJson (GoValue.ofJson j) = some j := by
  intro j
  induction j using Json.myInduction with
  | hnull => rfl
  | hbool b => rfl
  | hnum n => rfl
  | hstr s => rfl
  | harr es ihs =>
    have hlist : goListToJson (GoValue.ofJsonList es) = some es := by
      induction es with
      | nil => rfl
      | cons e es ihl =>
        have h1 : GoValue.ofJsonList (e :: es) = GoValue.ofJson e :: GoValue.ofJsonList es := rfl
        rw [h1]
        show (match goToJson (GoValue.ofJson e), goListToJson (GoValue.ofJsonList es) with
              | some j, some js => some (j :: js)
              | _, _ => none) = _
        rw [ihs e (by simp), ihl (fun x hx => ihs x (by simp [hx]))]
    show (match goListToJson (GoValue.ofJsonList es) with
          | some js => some (Json.arr js)
          | none => none) = _
    rw [hlist]
  | hobj fs ihs =>
    have hlist : goFieldsToJson (GoValue.ofJsonFields fs) = some fs := by
      induction fs with
      | nil => rfl
      | cons kv fs ihl =>
        obtain ⟨k, v⟩ := kv
        have h1 : GoValue.ofJsonFields ((k, v) :: fs)
            = (k, GoValue.ofJson v) :: GoValue.ofJsonFields fs := rfl
        rw [h1]
        show (match goToJson (GoValue.ofJson v), goFieldsToJson (GoValue.ofJsonFields fs) with
              | some j, some js => some ((k, j) :: js)
              | _, _ => none) = _
        rw [ihs (k, v) (by simp), ihl (fun x hx => ihs x (by simp [hx]))]
    show (match goFieldsToJson (GoValue.ofJsonFields fs) with
          | some js => some (Json.obj js)
          | none => none) = _
    rw [hlist]

/-- Structural induction for the nested `GoValue` type. -/
theorem GoValue.goInduction (P : GoValue → Prop)
    (hnull : P .null) (hbool : ∀ b, P (.boolV b)) (hint : ∀ n, P (.intV n))
    (hstr : ∀ s, P (.strV s))
    (hslice : ∀ es, (∀ e ∈ es, P e) → P (.sliceV es))
    (hmap : ∀ fs, (∀ kv ∈ fs, P kv.2) → P (.mapV fs))
    (hfunc : P .funcV) (hchan : P .chanV) (hcomplex : P .complexV) :
    ∀ v, P v
  | .null => hnull
  | .boolV b => hbool b
  | .intV n => hint n
  | .strV s => hstr s
  | .sliceV es => hslice es (fun e he =>
      GoValue.goInduction P hnull hbool hint hstr hslice hmap hfunc hchan hcomplex e)
  | .mapV fs => hmap fs (fun kv hkv =>
      GoValue.goInduction P hnull hbool hint hstr hslice hmap hfunc hchan hcomplex kv.2)
  | .funcV => hfunc
  | .chanV => hchan
  | .complexV => hcomplex
termination_by v => sizeOf v
decreasing_by
  · have h1 := List.sizeOf_lt_of_mem he
    simp only [GoValue.sliceV.sizeOf_spec]
    omega
  · have h1 := List.sizeOf_lt_of_mem hkv
    have h2 : sizeOf kv.2 < sizeOf kv := by
      obtain ⟨a, b⟩ := kv
      simp only [Prod.mk.sizeOf_spec]
      omega
    simp only [GoValue.mapV.sizeOf_spec]
    omega

/-- A value containing a non-serializable component does not marshal. -/
theorem goToJson_none_of_hasNS :
    ∀ v : GoValue, hasNonSerializable v = true → goToJson v = none := by
  intro v
  induction v using GoValue.goInduction with
  | hnull => intro h; exact Bool.noConfusion h
  | hbool b => intro h; exact Bool.noConfusion h
  | hint n => intro h; exact Bool.noConfusion h
  | hstr s => intro h; exact Bool.noConfusion h
  | hfunc => intro h; rfl
  | hchan => intro h; rfl
  | hcomplex => intro h; rfl
  | hslice es ihs =>
    intro h
    have hlist : goListToJson es = none := by
      induction es with
      | nil => exact Bool.noConfusion h
      | cons e es ihl =>
        have hstep : hasNSList (e :: es) = (hasNonSerializable e || hasNSList es) := rfl
        have hor : hasNonSerializable e = true ∨ hasNSList es = true := by
          have : hasNonSerializable (GoValue.sliceV (e :: es)) = hasNSList (e :: es) := rfl
          rw [this, hstep] at h
          exact Bool.or_eq_true_iff.mp h
        show (match goToJson e, goListToJson es with
              | some j, some js => some (j :: js)
              | _, _ => none) = none
        rcases hor with h1 | h1
        · rw [ihs e (by simp) h1]
        · have h2 : goListToJson es = none := by
            refine ihl ?_ ?_
            · intro x hx
              exact ihs x (by simp [hx])
            · show hasNonSerializable (GoValue.sliceV es) = true
              exact h1
          rw [h2]
          cases goToJson e <;> rfl
    show (match goListToJson es with
          | some js => some (Json.arr js)
          | none => none) = none
    rw [hlist]
  | hmap fs ihs =>
    intro h
    have hlist : goFieldsToJson fs = none := by
      induction fs with
      | nil => exact Bool.noConfusion h
      | cons kv fs ihl =>
        obtain ⟨k, v⟩ := kv
        have hstep : hasNSFields ((k, v) :: fs) = (hasNonSerializable v || hasNSFields fs) := rfl
        have hor : hasNonSerializable v = true ∨ hasNSFields fs = true := by
          have : hasNonSerializable (GoValue.mapV ((k, v) :: fs)) = hasNSFields ((k, v) :: fs) := rfl
          rw [this, hstep] at h
          exact Bool.or_eq_true_iff.mp h
        show (match goToJson v, goFieldsToJson fs with
              | some j, some js => some ((k, j) :: js)
              | _, _ => none) = none
        rcases hor with h1 | h1
        · rw [ihs (k, v) (by simp) h1]
        · have h2 : goFieldsToJson fs = none := by
            refine ihl ?_ ?_
            · intro x hx
              exact ihs x (by simp [hx])
            · show hasNonSerializable (GoValue.mapV fs) = true
              exact h1
          rw [h2]
          cases goToJson v <;> rfl
    show (match goFieldsToJson fs with
          | some js => some (Json.obj js)
          | none => none) = none
    rw [hlist]

/-! ### Canonical (Go map) form -/

/-- Strict lexicographic order on character lists by code point; on UTF-8
encoded strings this coincides with the byte-wise order in which Go's
`json.Marshal` sorts map keys. -/
def charsLtB : List Char → List Char → Bool
  | _, [] => false
  | [], _ :: _ => true
  | a :: as, b :: bs =>
    if a.toNat < b.toNat then true
    else if b.toNat < a.toNat then false
    else charsLtB as bs

def strLtB (s t : String) : Bool := charsLtB s.data t.data

def keysSortedB : List (String × Json) → Bool
  | [] => true
  | [_] => true
  | (k1, _) :: (k2, v2) :: fs => strLtB k1 k2 && keysSortedB ((k2, v2) :: fs)

mutual

/-- Canonical form: every object has strictly sorted (hence duplicate-free)
keys, the form in which Go's `json.Marshal` emits any `map[string]…` value. -/
def wfB : Json → Bool
  | .null => true
  | .bool _ => true
  | .num _ => true
  | .str _ => true
  | .arr es => wfListB es
  | .obj fs => keysSortedB fs && wfFieldsB fs

def wfListB : List Json → Bool
  | [] => true
  | e :: es => wfB e && wfListB es

def wfFieldsB : List (String × Json) → Bool
  | [] => true
  | (_, v) :: fs => wfB v && wfFieldsB fs

end

/-! ### Error taxonomy (`shroud.go` sentinel errors and wrapped errors)

`ErrInvalidKey`, `ErrInvalidSecret` and `ErrEmptyValue` are the package's
sentinel errors.  `marshalErr` models the wrapped "failed to marshal value"
error, `cipherInitErr` the wrapped cipher/GCM construction failures, and
`unmarshalErr` the wrapped "failed to unmarshal value" error, carrying the
`encoding/json` error kind it wraps (syntax error, `InvalidUnmarshalError`
for a nil destination — the spec's `InvalidArgument` — or
`UnmarshalTypeError` for a shape mismatch — the spec's
`DeserializationError`). -/

inductive UErr where
  | syntaxErr : UErr
  | invalidUnmarshal : UErr
  | typeMismatch : UErr
deriving DecidableEq

inductive ShroudErr where
  | invalidKey : ShroudErr
  | invalidSecret : ShroudErr
  | emptyValue : ShroudErr
  | marshalErr : ShroudErr
  | cipherInitErr : ShroudErr
  | unmarshalErr : UErr → ShroudErr
deriving DecidableEq

/-- The static shape of the destination `dest any` points at:
`interface{}` (accepts any tree) or a concrete scalar type. -/
inductive Shape where
  | any : Shape
  | strS : Shape
  | numS : Shape
  | boolS : Shape
deriving DecidableEq

/-- Decoding a JSON tree into a destination of the given shape. -/
def coerce : Shape → Json → Option Json
  | .any, j => some j
  | .strS, .str s => some (.str s)
  | .strS, _ => none
  | .numS, .num n => some (.num n)
  | .numS, _ => none
  | .boolS, .bool b => some (.bool b)
  | .boolS, _ => none

/-- Modelled from the spec: `json.Unmarshal(data, dest)` — not part of the
repository.  Go first validates the JSON syntax (`checkValid`), then
rejects a nil destination with `InvalidUnmarshalError`, then decodes into
the destination's shape; per spec §7 a failure produces no output. -/
def unmarshal (data : List Nat) (dest : Option Shape) : Except UErr Json :=
  match utf8Decode data with
  | none => .error .syntaxErr
  | some chars =>
    match jsonParse chars with
    | none => .error .syntaxErr
    | some j =>
      match dest with
      | none => .error .invalidUnmarshal
      | some sh =>
        match coerce sh j with
        | some j2 => .ok j2
        | none => .error .typeMismatch

/-- Modelled from the spec: `json.Marshal(value)` — UTF-8 bytes of the
compact encoding, or an `UnsupportedTypeError` for values outside the
serializable fragment. -/
def jsonMarshal (v : GoValue) : Except Unit (List Nat) :=
  match goToJson v with
  | none => .error ()
  | some j => .ok (utf8Encode (jsonPrint j))

/-! ### The `shroud` package API (`src/shroud.go`) -/

/-- `Client` (src/shroud.go:21-23): holds the encryption key. -/
structure Client where
  encryptionKey : List Nat
deriving DecidableEq

/-- `Secret` (src/shroud.go:26-29): the base64 token and its client. -/
structure Secret where
  encrypted : String
  client : Client
deriving DecidableEq

/-- `NewSecretClient` (src/shroud.go:32-40): reject any key whose length
is not exactly 32 bytes. -/
def NewSecretClient (encryptionKey : List Nat) : Except ShroudErr Client :=
  if encryptionKey.length ≠ 32 then .error .invalidKey
  else .ok ⟨encryptionKey⟩

/-- `aes.NewCipher` accepts exactly 16-, 24- or 32-byte keys. -/
def aesKeyOk (key : List Nat) : Prop :=
  key.length = 16 ∨ key.length = 24 ∨ key.length = 32

instance (key : List Nat) : Decidable (aesKeyOk key) := by
  unfold aesKeyOk; infer_instance

/-- `Client.Shroud` (src/shroud.go:43-79): marshal, reject an empty
serialized form, build the cipher, seal under the supplied fresh nonce
(`gcm.Seal(nonce, nonce, jsonData, nil)` prepends the nonce), and base64
the result.  The 12 random bytes `io.ReadFull(rand.Reader, nonce)` draws
are passed in as the `nonce` argument. -/
def Client.Shroud (c : Client) (value : GoValue) (nonce : List Nat) :
    Except ShroudErr Secret :=
  match jsonMarshal value with
  | .error _ => .error .marshalErr
  | .ok jsonData =>
    if jsonData.length = 0 then .error .emptyValue
    else if ¬ aesKeyOk c.encryptionKey then .error .cipherInitErr
    else
      let ciphertext := nonce ++ gcmSeal c.encryptionKey nonce jsonData
      .ok ⟨String.mk (b64encode ciphertext), c⟩

/-- `Client.CreateFromEncrypted` (src/shroud.go:82-97): reject an empty
token, validate base64-decodability, store the token unchanged — no
decryption or structural validation happens here. -/
def Client.CreateFromEncrypted (c : Client) (encrypted : String) :
    Except ShroudErr Secret :=
  if encrypted = "" then .error .emptyValue
  else
    match b64decode encrypted.data with
    | none => .error .invalidSecret
    | some _ => .ok ⟨encrypted, c⟩

/-- `Secret.Expose` (src/shroud.go:100-139): base64-decode the token,
build the cipher, split off the 12-byte nonce, open, and unmarshal into
the destination. -/
def Secret.Expose (s : Secret) (dest : Option Shape) : Except ShroudErr Json :=
  match b64decode s.encrypted.data with
  | none => .error .invalidSecret
  | some ciphertext =>
    if ¬ aesKeyOk s.client.encryptionKey then .error .cipherInitErr
    else if ciphertext.length < nonceSize then .error .invalidSecret
    else
      match gcmOpen s.client.encryptionKey (ciphertext.take nonceSize)
          (ciphertext.drop nonceSize) with
      | none => .error .invalidSecret
      | some plaintext =>
        match unmarshal plaintext dest with
        | .error e => .error (.unmarshalErr e)
        | .ok j => .ok j

/-- `Secret.EncryptedValue` (src/shroud.go:142-144). -/
def Secret.EncryptedValue (s : Secret) : String := s.encrypted

/-- `Client.Shroud` in Go's two-value return shape `(*Secret, error)`. -/
def Client.ShroudGo (c : Client) (value : GoValue) (nonce : List Nat) :
    Option Secret × Option ShroudErr :=
  match jsonMarshal value with
  | .error _ => (none, some .marshalErr)
  | .ok jsonData =>
    if jsonData.length = 0 then (none, some .emptyValue)
    else if ¬ aesKeyOk c.encryptionKey then (none, some .cipherInitErr)
    else
      (some ⟨String.mk (b64encode (nonce ++ gcmSeal c.encryptionKey nonce jsonData)), c⟩,
        none)

/-- `Secret.Expose` with the caller's destination made explicit: `old` is
the content of the destination before the call, the first component its
content after.  Every error path of src/shroud.go:100-139 returns before
writing to `dest`; the deserialization arm follows the spec-modelled
`unmarshal` above (spec §7: no partial results on failure). -/
def Secret.ExposeInto (s : Secret) (dest : Option Shape) (old : Option Json) :
    Option Json × Option ShroudErr :=
  match b64decode s.encrypted.data with
  | none => (old, some .invalidSecret)
  | some ciphertext =>
    if ¬ aesKeyOk s.client.encryptionKey then (old, some .cipherInitErr)
    else if ciphertext.length < nonceSize then (old, some .invalidSecret)
    else
      match gcmOpen s.client.encryptionKey (ciphertext.take nonceSize)
          (ciphertext.drop nonceSize) with
      | none => (old, some .invalidSecret)
      | some plaintext =>
        match unmarshal plaintext dest with
        | .error e => (old, some (.unmarshalErr e))
        | .ok j => (some j, none)

/-! ### Helper lemmas about the API -/

theorem isBytes_append {l1 l2 : List Nat} (h1 : isBytes l1) (h2 : isBytes l2) :
    isBytes (l1 ++ l2) := by
  intro b hb
  rw [List.mem_append] at hb
  rcases hb with h | h
  · exact h1 b h
  · exact h2 b h

theorem utf8Encode_length_pos (c : Char) (cs : List Char) :
    0 < (utf8Encode (c :: cs)).length := by
  have h : utf8Encode (c :: cs) = utf8EncodeChar c ++ utf8Encode cs := by
    simp [utf8Encode]
  rw [h, List.length_append]
  cases hcc : utf8EncodeChar c with
  | nil => exact absurd hcc (utf8EncodeChar_ne_nil c)
  | cons x xs => simp

theorem stringDataMk (l : List Char) : (String.mk l).data = l := rfl

/-- Inversion of a successful `Shroud`. -/
theorem Shroud_ok_inv {c : Client} {value : GoValue} {nonce : List Nat} {s : Secret}
    (h : c.Shroud value nonce = .ok s) :
    ∃ j : Json, goToJson value = some j
      ∧ s = ⟨String.mk (b64encode (nonce
          ++ gcmSeal c.encryptionKey nonce (utf8Encode (jsonPrint j)))), c⟩
      ∧ aesKeyOk c.encryptionKey := by
  unfold Client.Shroud at h
  unfold jsonMarshal at h
  cases hj : goToJson value with
  | none =>
    rw [hj] at h
    exact absurd h (by simp)
  | some j =>
    rw [hj] at h
    simp only at h
    split at h
    · exact absurd h (by simp)
    · split at h
      · exact absurd h (by simp)
      · rename_i hkey
        refine ⟨j, rfl, ?heq, by
          revert hkey
          by_cases hk : aesKeyOk c.encryptionKey
          · intro _; exact hk
          · intro hkey; exact absurd hk (by intro h2; exact hkey h2)⟩
        simp only [Except.ok.injEq] at h
        exact h.symm

/-- The successful decrypt path: on a secret freshly produced by `Shroud`,
`Expose` reaches the deserialization step with the marshalled plaintext. -/
theorem Expose_of_sealed_gen (key nonce : List Nat) (j : Json) (dest : Option Shape)
    (hkey : aesKeyOk key) (hn : nonce.length = 12) (hnb : isBytes nonce) :
    (Secret.mk (String.mk (b64encode (nonce
        ++ gcmSeal key nonce (utf8Encode (jsonPrint j))))) (Client.mk key)).Expose dest
      = match unmarshal (utf8Encode (jsonPrint j)) dest with
        | .error e => .error (.unmarshalErr e)
        | .ok x => .ok x := by
  have hpt : isBytes (utf8Encode (jsonPrint j)) := utf8Encode_isBytes _
  have hblob : isBytes (nonce ++ gcmSeal key nonce (utf8Encode (jsonPrint j))) :=
    isBytes_append hnb (gcmSeal_isBytes _ _ _ hpt)
  unfold Secret.Expose
  rw [stringDataMk, b64decode_b64encode _ hblob]
  simp only
  rw [if_neg (by
    simp only [not_not]
    exact hkey)]
  have hlen : (nonce ++ gcmSeal key nonce (utf8Encode (jsonPrint j))).length
      = 12 + ((utf8Encode (jsonPrint j)).length + 16) := by
    rw [List.length_append, hn, gcmSeal_length]
    rfl
  rw [if_neg (by
    rw [hlen]
    show ¬ (12 + _ < nonceSize)
    unfold nonceSize
    omega)]
  have htake : (nonce ++ gcmSeal key nonce (utf8Encode (jsonPrint j))).take nonceSize
      = nonce := List.take_left' (by rw [hn]; rfl)
  have hdrop : (nonce ++ gcmSeal key nonce (utf8Encode (jsonPrint j))).drop nonceSize
      = gcmSeal key nonce (utf8Encode (jsonPrint j)) := List.drop_left' (by rw [hn]; rfl)
  rw [htake, hdrop, gcmOpen_gcmSeal]

/-- Decoding the marshalled plaintext into an `interface` destination
recovers the tree. -/
theorem unmarshal_print_any (j : Json) :
    unmarshal (utf8Encode (jsonPrint j)) (some Shape.any) = .ok j := by
  unfold unmarshal
  rw [utf8Decode_utf8Encode]
  simp only [jsonParse_jsonPrint]
  rfl

/-- Decoding the marshalled plaintext with a nil destination fails with
Go's `InvalidUnmarshalError`. -/
theorem unmarshal_print_nil (j : Json) :
    unmarshal (utf8Encode (jsonPrint j)) none = .error .invalidUnmarshal := by
  unfold unmarshal
  rw [utf8Decode_utf8Encode]
  simp only [jsonParse_jsonPrint]

theorem Expose_of_sealed (key nonce : List Nat) (j : Json)
    (hkey : aesKeyOk key) (hn : nonce.length = 12) (hnb : isBytes nonce) :
    (Secret.mk (String.mk (b64encode (nonce
        ++ gcmSeal key nonce (utf8Encode (jsonPrint j))))) (Client.mk key)).Expose
      (some Shape.any) = .ok j := by
  rw [Expose_of_sealed_gen key nonce j (some Shape.any) hkey hn hnb, unmarshal_print_any]

/-! ### Tamper detection -/

theorem gcmTag_ne_nonce_parts (key A B ct : List Nat) (x y : Nat)
    (hne : x ≠ y) (hx : x < 256) (hy : y < 256) :
    gcmTag key (A ++ x :: B) ct ≠ gcmTag key (A ++ y :: B) ct := by
  unfold gcmTag
  have h3 : ∀ z : Nat, key ++ (A ++ z :: B) ++ ct = (key ++ A) ++ z :: (B ++ ct) := by
    intro z
    simp
  rw [h3, h3]
  exact tagBytes_ne_of_byte_change _ _ x y hne hx hy

theorem gcmTag_ne_ct_parts (key nonce A B : List Nat) (x y : Nat)
    (hne : x ≠ y) (hx : x < 256) (hy : y < 256) :
    gcmTag key nonce (A ++ x :: B) ≠ gcmTag key nonce (A ++ y :: B) := by
  unfold gcmTag
  have h3 : ∀ z : Nat, key ++ nonce ++ (A ++ z :: B) = ((key ++ nonce) ++ A) ++ z :: B := by
    intro z
    simp
  rw [h3, h3]
  exact tagBytes_ne_of_byte_change _ _ x y hne hx hy

theorem list_decomp (l : List Nat) (i : Nat) (hi : i < l.length) :
    l = l.take i ++ l[i] :: l.drop (i + 1) := by
  conv_lhs => rw [← List.take_append_drop i l]
  rw [List.getElem_cons_drop]

theorem set_getElem_ne (l : List Nat) (i : Nat) (hi : i < l.length) (x : Nat)
    (hx : x ≠ l[i]) : l.set i x ≠ l := by
  intro habs
  have h1 : (l.set i x)[i]? = l[i]? := by rw [habs]
  rw [List.getElem?_set_self hi, List.getElem?_eq_getElem hi] at h1
  exact hx (Option.some.inj h1)

theorem two_pow_lt_256 {t : Nat} (ht : t < 8) : 2 ^ t < 256 := by
  have : (2 : Nat) ^ t < 2 ^ 8 := Nat.pow_lt_pow_right (by norm_num) ht
  simpa using this

/-- Flipping any single bit of the decoded bytes of a freshly sealed token
makes decryption fail. -/
theorem Expose_flip (key nonce pt : List Nat) (i t : Nat)
    (hkey : aesKeyOk key) (hn : nonce.length = 12) (hnb : isBytes nonce)
    (hptb : isBytes pt) (ht : t < 8)
    (blob : List Nat) (hblob : blob = nonce ++ gcmSeal key nonce pt)
    (hi : i < blob.length) :
    (Secret.mk (String.mk (b64encode (blob.set i (blob[i] ^^^ 2 ^ t))))
        (Client.mk key)).Expose (some Shape.any) = .error .invalidSecret := by
  have hBb : isBytes blob := by
    rw [hblob]
    exact isBytes_append hnb (gcmSeal_isBytes _ _ _ hptb)
  have hbi : blob[i] < 256 := hBb _ (List.getElem_mem ..)
  have hb' : blob[i] ^^^ 2 ^ t < 256 := xor_lt_256 hbi (two_pow_lt_256 ht)
  have hbne : blob[i] ^^^ 2 ^ t ≠ blob[i] := by
    intro habs
    have h0 : blob[i] ^^^ 2 ^ t = blob[i] ^^^ 0 := by
      rw [Nat.xor_zero]
      exact habs
    have h1 : (2 : Nat) ^ t = 0 := Nat.xor_right_inj.mp h0
    exact absurd h1 (by positivity)
  have hB'b : isBytes (blob.set i (blob[i] ^^^ 2 ^ t)) := by
    intro b hb
    rcases List.mem_or_eq_of_mem_set hb with h | h
    · exact hBb b h
    · rw [h]
      exact hb'
  obtain ⟨x, hxdef⟩ : ∃ x, blob[i] ^^^ 2 ^ t = x := ⟨_, rfl⟩
  rw [hxdef] at hb' hbne hB'b
  rw [hxdef]
  set ct := List.zipWith (fun a b => a ^^^ b) pt (keystream key nonce pt.length) with hct
  have hctlen : ct.length = pt.length := by
    rw [hct]
    simp [keystream_length]
  have hctb : isBytes ct := by
    intro b hb
    have : b ∈ gcmSeal key nonce pt := by
      unfold gcmSeal
      rw [List.mem_append]
      exact Or.inl hb
    exact gcmSeal_isBytes _ _ _ hptb b this
  set tag := gcmTag key nonce ct with htag
  have htaglen : tag.length = 16 := by
    rw [htag]
    unfold gcmTag
    exact natToBytesBE_length ..
  have hseal : gcmSeal key nonce pt = ct ++ tag := rfl
  have hblob2 : blob = nonce ++ (ct ++ tag) := by rw [hblob, hseal]
  have hlen : blob.length = 12 + (ct.length + 16) := by
    rw [hblob2, List.length_append, List.length_append, hn, htaglen]
  -- common Expose prefix for the tampered secret
  unfold Secret.Expose
  rw [stringDataMk, b64decode_b64encode _ hB'b]
  simp only
  rw [if_neg (by
    simp only [not_not]
    exact hkey)]
  rw [if_neg (by
    rw [List.length_set]
    show ¬ (blob.length < nonceSize)
    unfold nonceSize
    omega)]
  by_cases hcase1 : i < 12
  · -- flip inside the nonce
    have hsplit : blob.set i x
        = nonce.set i x ++ (ct ++ tag) := by
      rw [hblob2]
      exact List.set_append_left _ _ (by omega)
    have hgi : blob[i] = nonce[i] := by
      have h1 : blob[i]? = nonce[i]? := by
        rw [hblob2, List.getElem?_append_left (by omega)]
      rw [List.getElem?_eq_getElem hi, List.getElem?_eq_getElem (by omega : i < nonce.length)] at h1
      exact Option.some.inj h1
    have htake : (blob.set i x).take nonceSize
        = nonce.set i x := by
      rw [hsplit]
      exact List.take_left' (by rw [List.length_set, hn]; rfl)
    have hdrop : (blob.set i x).drop nonceSize = ct ++ tag := by
      rw [hsplit]
      exact List.drop_left' (by rw [List.length_set, hn]; rfl)
    rw [htake, hdrop]
    unfold gcmOpen
    rw [if_neg (by
      rw [List.length_append, htaglen]
      unfold gcmTagSize
      omega)]
    have hsub : (ct ++ tag).length - gcmTagSize = ct.length := by
      rw [List.length_append, htaglen]
      unfold gcmTagSize
      omega
    rw [hsub, List.take_left, List.drop_left]
    rw [if_neg ?tagne]
    case tagne =>
      have hdec : nonce = nonce.take i ++ nonce[i] :: nonce.drop (i + 1) :=
        list_decomp nonce i (by omega)
      have hdec2 : nonce.set i x
          = nonce.take i ++ x :: nonce.drop (i + 1) :=
        List.set_eq_take_cons_drop _ (by omega)
      rw [hgi] at hbne
      intro habs
      rw [htag] at habs
      rw [hdec2] at habs
      conv_lhs at habs => rw [hdec]
      exact gcmTag_ne_nonce_parts key (nonce.take i) (nonce.drop (i + 1)) ct
        (nonce[i]) (x)
        (fun h => hbne h.symm) (hnb _ (List.getElem_mem ..)) hb' habs
  · by_cases hcase2 : i < 12 + ct.length
    · -- flip inside the ciphertext body
      have hji : i - 12 < ct.length := by omega
      have hsplit : blob.set i x
          = nonce ++ (ct.set (i - 12) x ++ tag) := by
        rw [hblob2]
        rw [List.set_append_right _ _ (by omega)]
        congr 1
        rw [hn]
        exact List.set_append_left _ _ (by omega)
      have hgi : blob[i] = ct[i - 12] := by
        have h1 : blob[i]? = ct[i - 12]? := by
          rw [hblob2, List.getElem?_append_right (by omega), hn,
            List.getElem?_append_left (by omega)]
        rw [List.getElem?_eq_getElem hi, List.getElem?_eq_getElem hji] at h1
        exact Option.some.inj h1
      have htake : (blob.set i x).take nonceSize = nonce := by
        rw [hsplit]
        exact List.take_left' (by rw [hn]; rfl)
      have hdrop : (blob.set i x).drop nonceSize
          = ct.set (i - 12) x ++ tag := by
        rw [hsplit]
        exact List.drop_left' (by rw [hn]; rfl)
      rw [htake, hdrop]
      unfold gcmOpen
      rw [if_neg (by
        rw [List.length_append, List.length_set, htaglen]
        unfold gcmTagSize
        omega)]
      have hsub : (ct.set (i - 12) x ++ tag).length - gcmTagSize
          = (ct.set (i - 12) x).length := by
        rw [List.length_append, htaglen]
        unfold gcmTagSize
        omega
      rw [hsub, List.take_left, List.drop_left]
      rw [if_neg ?tagne2]
      case tagne2 =>
        have hdec : ct = ct.take (i - 12) ++ ct[i - 12] :: ct.drop (i - 12 + 1) :=
          list_decomp ct (i - 12) hji
        have hdec2 : ct.set (i - 12) x
            = ct.take (i - 12) ++ x :: ct.drop (i - 12 + 1) :=
          List.set_eq_take_cons_drop _ hji
      -- stored tag is over ct; recomputed over the modified ciphertext
        rw [hgi] at hbne
        intro habs
        rw [htag] at habs
        rw [hdec2] at habs
        conv_lhs at habs => rw [hdec]
        exact gcmTag_ne_ct_parts key nonce (ct.take (i - 12)) (ct.drop (i - 12 + 1))
          (ct[i - 12]) (x)
          (fun h => hbne h.symm) (hctb _ (List.getElem_mem ..)) hb' habs
    · -- flip inside the authentication tag
      have hji : i - 12 - ct.length < 16 := by omega
      have hsplit : blob.set i x
          = nonce ++ (ct ++ tag.set (i - 12 - ct.length) x) := by
        rw [hblob2]
        rw [List.set_append_right _ _ (by omega)]
        congr 1
        rw [hn]
        rw [List.set_append_right _ _ (by omega)]
      have hgi : blob[i] = tag[i - 12 - ct.length] := by
        have h1 : blob[i]? = tag[i - 12 - ct.length]? := by
          rw [hblob2, List.getElem?_append_right (by omega), hn,
            List.getElem?_append_right (by omega)]
        rw [List.getElem?_eq_getElem hi,
          List.getElem?_eq_getElem (by rw [htaglen]; omega : i - 12 - ct.length < tag.length)] at h1
        exact Option.some.inj h1
      have htake : (blob.set i x).take nonceSize = nonce := by
        rw [hsplit]
        exact List.take_left' (by rw [hn]; rfl)
      have hdrop : (blob.set i x).drop nonceSize
          = ct ++ tag.set (i - 12 - ct.length) x := by
        rw [hsplit]
        exact List.drop_left' (by rw [hn]; rfl)
      rw [htake, hdrop]
      unfold gcmOpen
      rw [if_neg (by
        rw [List.length_append, List.length_set, htaglen]
        unfold gcmTagSize
        omega)]
      have hsub : (ct ++ tag.set (i - 12 - ct.length) x).length - gcmTagSize
          = ct.length := by
        rw [List.length_append, List.length_set, htaglen]
        unfold gcmTagSize
        omega
      rw [hsub, List.take_left, List.drop_left]
      rw [if_neg ?tagne3]
      case tagne3 =>
        rw [hgi] at hbne
        rw [← htag]
        refine set_getElem_ne tag (i - 12 - ct.length) (by omega) _ hbne
  all_goals rfl

theorem NewSecretClient_ok_inv {key : List Nat} {c : Client}
    (h : NewSecretClient key = .ok c) : key.length = 32 ∧ c = ⟨key⟩ := by
  unfold NewSecretClient at h
  by_cases hk : key.length ≠ 32
  · rw [if_pos hk] at h
    exact absurd h (by simp)
  · rw [if_neg hk] at h
    exact ⟨by omega, (Except.ok.inj h).symm⟩

/-! ### The claims -/

/-- C1 — Round-trip: for every value of the JSON-equivalent data model (in
canonical Go-map form), `Shroud` under a client built by `NewSecretClient`
followed by `Expose` into a matching (`interface`-shaped) destination
succeeds and returns the original value. -/
theorem claim_C1_roundtrip (key nonce : List Nat) (j : Json) (c : Client)
    (hc : NewSecretClient key = .ok c)
    (hn : nonce.length = 12) (hnb : isBytes nonce) (hwf : wfB j = true) :
    ∃ s : Secret, c.Shroud (GoValue.ofJson j) nonce = .ok s
      ∧ s.Expose (some Shape.any) = .ok j := by
  obtain ⟨hkey, rfl⟩ := NewSecretClient_ok_inv hc
  have haes : aesKeyOk key := Or.inr (Or.inr hkey)
  obtain ⟨ch, cs, hcs, hch⟩ := jsonPrint_head j
  have hplen : ¬ ((utf8Encode (jsonPrint j)).length = 0) := by
    rw [hcs]
    have := utf8Encode_length_pos ch cs
    omega
  refine ⟨⟨String.mk (b64encode (nonce
      ++ gcmSeal key nonce (utf8Encode (jsonPrint j)))), ⟨key⟩⟩, ?hsh, ?hex⟩
  case hsh =>
    unfold Client.Shroud jsonMarshal
    rw [goToJson_ofJson]
    simp only
    rw [if_neg hplen]
    rw [if_neg (by
      simp only [not_not]
      exact haes)]
  case hex => exact Expose_of_sealed key nonce j haes hn hnb

/-- C1 witness at a nested concrete value. -/
theorem claim_C1_roundtrip_witness :
    ∃ s : Secret, (Client.mk (List.replicate 32 0)).Shroud
        (GoValue.ofJson (Json.obj
          [("a", Json.arr [Json.num 1, Json.str "héllo", Json.null]),
           ("b", Json.bool true)]))
        (List.range 12) = .ok s
      ∧ s.Expose (some Shape.any) = .ok (Json.obj
          [("a", Json.arr [Json.num 1, Json.str "héllo", Json.null]),
           ("b", Json.bool true)]) :=
  claim_C1_roundtrip (List.replicate 32 0) (List.range 12) _ _
    (by rfl) (by rfl) (by decide) (by rfl)

/-- C3 — Nonce uniqueness: the same value shrouded twice under the same
client with two different fresh nonces gives two different tokens, each of
which independently exposes back to the value. -/
theorem claim_C3_nonce_uniqueness (key n1 n2 : List Nat) (j : Json) (c : Client)
    (s1 s2 : Secret)
    (hc : NewSecretClient key = .ok c) (h1 : n1.length = 12) (h2 : n2.length = 12)
    (hb1 : isBytes n1) (hb2 : isBytes n2) (hne : n1 ≠ n2) (hwf : wfB j = true)
    (hs1 : c.Shroud (GoValue.ofJson j) n1 = .ok s1)
    (hs2 : c.Shroud (GoValue.ofJson j) n2 = .ok s2) :
    s1.EncryptedValue ≠ s2.EncryptedValue
      ∧ s1.Expose (some Shape.any) = .ok j
      ∧ s2.Expose (some Shape.any) = .ok j := by
  obtain ⟨hkey, rfl⟩ := NewSecretClient_ok_inv hc
  have haes : aesKeyOk key := Or.inr (Or.inr hkey)
  obtain ⟨j1, hj1, hs1e, _⟩ := Shroud_ok_inv hs1
  obtain ⟨j2, hj2, hs2e, _⟩ := Shroud_ok_inv hs2
  rw [goToJson_ofJson] at hj1 hj2
  have hjj1 : j1 = j := (Option.some.inj hj1).symm
  have hjj2 : j2 = j := (Option.some.inj hj2).symm
  rw [hjj1] at hs1e
  rw [hjj2] at hs2e
  have hb1' : isBytes (n1 ++ gcmSeal key n1 (utf8Encode (jsonPrint j))) :=
    isBytes_append hb1 (gcmSeal_isBytes _ _ _ (utf8Encode_isBytes _))
  have hb2' : isBytes (n2 ++ gcmSeal key n2 (utf8Encode (jsonPrint j))) :=
    isBytes_append hb2 (gcmSeal_isBytes _ _ _ (utf8Encode_isBytes _))
  refine ⟨?tok, ?e1, ?e2⟩
  case tok =>
    rw [hs1e, hs2e]
    intro habs
    unfold Secret.EncryptedValue at habs
    simp only at habs
    have hdata : b64encode (n1 ++ gcmSeal key n1 (utf8Encode (jsonPrint j)))
        = b64encode (n2 ++ gcmSeal key n2 (utf8Encode (jsonPrint j))) :=
      congrArg String.data habs
    have hblobs := b64encode_inj hb1' hb2' hdata
    have htk : (n1 ++ gcmSeal key n1 (utf8Encode (jsonPrint j))).take 12
        = (n2 ++ gcmSeal key n2 (utf8Encode (jsonPrint j))).take 12 := by
      rw [hblobs]
    rw [List.take_left' h1, List.take_left' h2] at htk
    exact hne htk
  case e1 =>
    rw [hs1e]
    exact Expose_of_sealed key n1 j haes h1 hb1
  case e2 =>
    rw [hs2e]
    exact Expose_of_sealed key n2 j haes h2 hb2

/-- C3 witness: one value, two concrete distinct nonces. -/
theorem claim_C3_nonce_uniqueness_witness :
    (Secret.mk (String.mk (b64encode (List.range 12
        ++ gcmSeal (List.replicate 32 0) (List.range 12)
            (utf8Encode (jsonPrint (Json.num 5)))))) (Client.mk (List.replicate 32 0))).EncryptedValue
      ≠ (Secret.mk (String.mk (b64encode (List.replicate 12 7
        ++ gcmSeal (List.replicate 32 0) (List.replicate 12 7)
            (utf8Encode (jsonPrint (Json.num 5)))))) (Client.mk (List.replicate 32 0))).EncryptedValue
    ∧ (Secret.mk (String.mk (b64encode (List.range 12
        ++ gcmSeal (List.replicate 32 0) (List.range 12)
            (utf8Encode (jsonPrint (Json.num 5)))))) (Client.mk (List.replicate 32 0))).Expose
          (some Shape.any) = .ok (Json.num 5)
    ∧ (Secret.mk (String.mk (b64encode (List.replicate 12 7
        ++ gcmSeal (List.replicate 32 0) (List.replicate 12 7)
            (utf8Encode (jsonPrint (Json.num 5)))))) (Client.mk (List.replicate 32 0))).Expose
          (some Shape.any) = .ok (Json.num 5) :=
  claim_C3_nonce_uniqueness (List.replicate 32 0) (List.range 12)
    (List.replicate 12 7) (Json.num 5) (Client.mk (List.replicate 32 0)) _ _
    (by rfl) (by rfl) (by rfl) (by decide) (by decide) (by decide) (by rfl)
    (by rfl) (by rfl)

/-- C4 — Key validation: `NewSecretClient key` succeeds (returning a client
holding `key`) exactly when `key` has length 32, and fails with
`InvalidKey` for every other length. -/
theorem claim_C4_key_validation (key : List Nat) :
    (key.length = 32 → NewSecretClient key = .ok ⟨key⟩)
    ∧ (key.length ≠ 32 → NewSecretClient key = .error .invalidKey) := by
  constructor
  · intro h
    unfold NewSecretClient
    rw [if_neg (by omega)]
  · intro h
    unfold NewSecretClient
    rw [if_pos h]

/-- C4 witness: lengths 32 (success), 0, 16 and 64 (failure). -/
theorem claim_C4_key_validation_witness :
    NewSecretClient (List.replicate 32 0) = .ok ⟨List.replicate 32 0⟩
    ∧ NewSecretClient [] = .error .invalidKey
    ∧ NewSecretClient (List.replicate 16 0) = .error .invalidKey
    ∧ NewSecretClient (List.replicate 64 0) = .error .invalidKey :=
  ⟨(claim_C4_key_validation (List.replicate 32 0)).1 (by decide),
   (claim_C4_key_validation []).2 (by decide),
   (claim_C4_key_validation (List.replicate 16 0)).2 (by decide),
   (claim_C4_key_validation (List.replicate 64 0)).2 (by decide)⟩

/-- C6 — `CreateFromEncrypted`: an empty token fails with `EmptyValue`, a
token that is not valid standard base64 fails with `InvalidSecret`, and
every other token yields a Secret storing the token verbatim — no
decryption or structural validation is attempted. -/
theorem claim_C6_create_from_encrypted (c : Client) (tok : String) :
    (tok = "" → c.CreateFromEncrypted tok = .error .emptyValue)
    ∧ (tok ≠ "" → b64decode tok.data = none →
        c.CreateFromEncrypted tok = .error .invalidSecret)
    ∧ (∀ bs, tok ≠ "" → b64decode tok.data = some bs →
        c.CreateFromEncrypted tok = .ok ⟨tok, c⟩) := by
  refine ⟨?e, ?bad, ?ok⟩
  case e =>
    intro h
    unfold Client.CreateFromEncrypted
    rw [if_pos h]
  case bad =>
    intro h hd
    unfold Client.CreateFromEncrypted
    rw [if_neg h, hd]
  case ok =>
    intro bs h hd
    unfold Client.CreateFromEncrypted
    rw [if_neg h, hd]

/-- C6 witness: the empty token, a non-base64 token, and a well-formed
base64 token that does not decrypt (it still yields a Secret). -/
theorem claim_C6_create_from_encrypted_witness :
    (Client.mk (List.replicate 32 0)).CreateFromEncrypted ""
        = .error .emptyValue
    ∧ (Client.mk (List.replicate 32 0)).CreateFromEncrypted "!!!"
        = .error .invalidSecret
    ∧ (Client.mk (List.replicate 32 0)).CreateFromEncrypted "AAAAAAAAAAAAAAAA"
        = .ok ⟨"AAAAAAAAAAAAAAAA", Client.mk (List.replicate 32 0)⟩ :=
  ⟨(claim_C6_create_from_encrypted (Client.mk (List.replicate 32 0)) "").1 rfl,
   (claim_C6_create_from_encrypted (Client.mk (List.replicate 32 0)) "!!!").2.1
     (by decide) (by rfl),
   (claim_C6_create_from_encrypted (Client.mk (List.replicate 32 0))
       "AAAAAAAAAAAAAAAA").2.2 (List.replicate 12 0) (by decide) (by rfl)⟩

/-- C9 — Non-serializable rejection: shrouding any value containing a
function reference, channel handle or complex number fails with the
serialization error and produces no Secret. -/
theorem claim_C9_non_serializable (c : Client) (v : GoValue) (nonce : List Nat)
    (h : hasNonSerializable v = true) :
    c.ShroudGo v nonce = (none, some .marshalErr) := by
  unfold Client.ShroudGo jsonMarshal
  rw [goToJson_none_of_hasNS v h]

/-- C9 witness: a map holding a function value. -/
theorem claim_C9_non_serializable_witness :
    (Client.mk (List.replicate 32 0)).ShroudGo
        (GoValue.mapV [("f", GoValue.funcV)]) (List.range 12)
      = (none, some ShroudErr.marshalErr) :=
  claim_C9_non_serializable (Client.mk (List.replicate 32 0))
    (GoValue.mapV [("f", GoValue.funcV)]) (List.range 12) (by rfl)

/-- C5 — Token format: every successful `Shroud` returns a Secret whose
token is the standard base64 encoding of nonce ‖ ciphertext ‖ tag — the
nonce its first 12 bytes, the tag its trailing 16 bytes, and the decoded
length 12 + len(plaintext) + 16. -/
theorem claim_C5_token_format (c : Client) (v : GoValue) (nonce : List Nat)
    (s : Secret) (hn : nonce.length = 12) (hnb : isBytes nonce)
    (h : c.Shroud v nonce = .ok s) :
    ∃ pt ct : List Nat,
      jsonMarshal v = .ok pt
      ∧ ct = List.zipWith (fun a b => a ^^^ b) pt
          (keystream c.encryptionKey nonce pt.length)
      ∧ s.EncryptedValue.data
          = b64encode (nonce ++ ct ++ gcmTag c.encryptionKey nonce ct)
      ∧ b64decode s.EncryptedValue.data
          = some (nonce ++ ct ++ gcmTag c.encryptionKey nonce ct)
      ∧ (nonce ++ ct ++ gcmTag c.encryptionKey nonce ct).length
          = nonceSize + pt.length + gcmTagSize
      ∧ (nonce ++ ct ++ gcmTag c.encryptionKey nonce ct).take nonceSize = nonce
      ∧ (nonce ++ ct ++ gcmTag c.encryptionKey nonce ct).drop
          (nonceSize + pt.length) = gcmTag c.encryptionKey nonce ct := by
  obtain ⟨j, hj, hs, hkey⟩ := Shroud_ok_inv h
  refine ⟨utf8Encode (jsonPrint j),
    List.zipWith (fun a b => a ^^^ b) (utf8Encode (jsonPrint j))
      (keystream c.encryptionKey nonce (utf8Encode (jsonPrint j)).length),
    ?hm, rfl, ?hd, ?hdec, ?hlen, ?htake, ?hdrop⟩
  case hm =>
    unfold jsonMarshal
    rw [hj]
  case hd =>
    rw [hs]
    show b64encode (nonce ++ gcmSeal c.encryptionKey nonce
        (utf8Encode (jsonPrint j))) = _
    rw [List.append_assoc]
    rfl
  case hdec =>
    rw [hs]
    show b64decode (b64encode (nonce ++ gcmSeal c.encryptionKey nonce
        (utf8Encode (jsonPrint j)))) = _
    rw [b64decode_b64encode _ (isBytes_append hnb
      (gcmSeal_isBytes _ _ _ (utf8Encode_isBytes _)))]
    rw [List.append_assoc]
    rfl
  case hlen =>
    have h1 : (List.zipWith (fun a b => a ^^^ b) (utf8Encode (jsonPrint j))
        (keystream c.encryptionKey nonce (utf8Encode (jsonPrint j)).length)).length
        = (utf8Encode (jsonPrint j)).length := by
      rw [List.length_zipWith, keystream_length]
      omega
    simp only [List.length_append, h1, hn, gcmTag, natToBytesBE_length]
    simp [nonceSize, gcmTagSize]
  case htake =>
    rw [List.append_assoc]
    exact List.take_left' hn
  case hdrop =>
    rw [List.append_assoc]
    have h2 : (nonce ++ List.zipWith (fun a b => a ^^^ b) (utf8Encode (jsonPrint j))
        (keystream c.encryptionKey nonce (utf8Encode (jsonPrint j)).length)).length
        = nonceSize + (utf8Encode (jsonPrint j)).length := by
      rw [List.length_append, List.length_zipWith, keystream_length, hn]
      simp [nonceSize]
    rw [← List.append_assoc]
    exact List.drop_left' h2

/-- C5 witness at a concrete shroud. -/
theorem claim_C5_token_format_witness :
    ∃ pt ct : List Nat,
      jsonMarshal (GoValue.intV 5) = .ok pt
      ∧ ct = List.zipWith (fun a b => a ^^^ b) pt
          (keystream (List.replicate 32 0) (List.range 12) pt.length)
      ∧ (Secret.mk (String.mk (b64encode (List.range 12
          ++ gcmSeal (List.replicate 32 0) (List.range 12)
            (utf8Encode (jsonPrint (Json.num 5)))))) (Client.mk
              (List.replicate 32 0))).EncryptedValue.data
          = b64encode (List.range 12 ++ ct
              ++ gcmTag (List.replicate 32 0) (List.range 12) ct)
      ∧ b64decode (Secret.mk (String.mk (b64encode (List.range 12
          ++ gcmSeal (List.replicate 32 0) (List.range 12)
            (utf8Encode (jsonPrint (Json.num 5)))))) (Client.mk
              (List.replicate 32 0))).EncryptedValue.data
          = some (List.range 12 ++ ct
              ++ gcmTag (List.replicate 32 0) (List.range 12) ct)
      ∧ (List.range 12 ++ ct
          ++ gcmTag (List.replicate 32 0) (List.range 12) ct).length
          = nonceSize + pt.length + gcmTagSize
      ∧ (List.range 12 ++ ct
          ++ gcmTag (List.replicate 32 0) (List.range 12) ct).take nonceSize
          = List.range 12
      ∧ (List.range 12 ++ ct
          ++ gcmTag (List.replicate 32 0) (List.range 12) ct).drop
            (nonceSize + pt.length)
          = gcmTag (List.replicate 32 0) (List.range 12) ct :=
  claim_C5_token_format (Client.mk (List.replicate 32 0)) (GoValue.intV 5)
    (List.range 12) _ (by rfl) (by decide) (by rfl)

/-- C10 — Implicit invariant: a Secret produced by `Shroud` or by
`CreateFromEncrypted` stores a validly base64-decodable token, so the
decode branch of `Expose` cannot fail for it, and `EncryptedValue`
returns that valid base64 string. -/
theorem claim_C10_token_validity (c : Client) (v : GoValue) (nonce : List Nat)
    (tok : String) (s1 s2 : Secret)
    (hnb : isBytes nonce)
    (h1 : c.Shroud v nonce = .ok s1)
    (h2 : c.CreateFromEncrypted tok = .ok s2) :
    (∃ bs, b64decode s1.EncryptedValue.data = some bs)
    ∧ s2.EncryptedValue = tok
    ∧ (∃ bs, b64decode s2.EncryptedValue.data = some bs) := by
  obtain ⟨j, hj, hs, hkey⟩ := Shroud_ok_inv h1
  refine ⟨?d1, ?d2⟩
  case d1 =>
    rw [hs]
    exact ⟨_, b64decode_b64encode _ (isBytes_append hnb
      (gcmSeal_isBytes _ _ _ (utf8Encode_isBytes _)))⟩
  case d2 =>
    unfold Client.CreateFromEncrypted at h2
    by_cases he : tok = ""
    · rw [if_pos he] at h2
      exact absurd h2 (by simp)
    · rw [if_neg he] at h2
      cases hd : b64decode tok.data with
      | none =>
        rw [hd] at h2
        exact absurd h2 (by simp)
      | some bs =>
        rw [hd] at h2
        have hs2 : s2 = ⟨tok, c⟩ := (Except.ok.inj h2).symm
        rw [hs2]
        exact ⟨rfl, bs, hd⟩

/-- C10 witness: a shrouded Secret and a `CreateFromEncrypted` Secret. -/
theorem claim_C10_token_validity_witness :
    (∃ bs, b64decode (Secret.mk (String.mk (b64encode (List.range 12
        ++ gcmSeal (List.replicate 32 0) (List.range 12)
          (utf8Encode (jsonPrint (Json.num 5)))))) (Client.mk
            (List.replicate 32 0))).EncryptedValue.data = some bs)
    ∧ (Secret.mk "AAAAAAAAAAAAAAAA"
        (Client.mk (List.replicate 32 0))).EncryptedValue = "AAAAAAAAAAAAAAAA"
    ∧ (∃ bs, b64decode (Secret.mk "AAAAAAAAAAAAAAAA"
        (Client.mk (List.replicate 32 0))).EncryptedValue.data = some bs) :=
  claim_C10_token_validity (Client.mk (List.replicate 32 0)) (GoValue.intV 5)
    (List.range 12) "AAAAAAAAAAAAAAAA" _ _ (by decide) (by rfl) (by rfl)

/-- C7 — Atomicity on failure: whenever `Shroud` reports an error no Secret
is produced, and whenever `Expose` reports an error the caller's
destination keeps its old content — no partial result is delivered. -/
theorem claim_C7_atomicity (c : Client) (v : GoValue) (nonce : List Nat)
    (s : Secret) (dest : Option Shape) (old : Option Json) (e e2 : ShroudErr) :
    ((c.ShroudGo v nonce).2 = some e → (c.ShroudGo v nonce).1 = none)
    ∧ ((s.ExposeInto dest old).2 = some e2 → (s.ExposeInto dest old).1 = old) := by
  constructor
  · intro h
    unfold Client.ShroudGo at h ⊢
    cases hm : jsonMarshal v with
    | error u => rfl
    | ok jd =>
      rw [hm] at h
      simp only at h ⊢
      by_cases hz : jd.length = 0
      · rw [if_pos hz]
      · rw [if_neg hz] at h ⊢
        by_cases hk : ¬ aesKeyOk c.encryptionKey
        · rw [if_pos hk]
        · rw [if_neg hk] at h
          exact Option.noConfusion h
  · intro h
    unfold Secret.ExposeInto at h ⊢
    cases hd : b64decode s.encrypted.data with
    | none => rfl
    | some ct =>
      rw [hd] at h
      simp only at h ⊢
      by_cases hk : ¬ aesKeyOk s.client.encryptionKey
      · rw [if_pos hk]
      · rw [if_neg hk] at h ⊢
        by_cases hl : ct.length < nonceSize
        · rw [if_pos hl]
        · rw [if_neg hl] at h ⊢
          cases ho : gcmOpen s.client.encryptionKey (ct.take nonceSize)
              (ct.drop nonceSize) with
          | none => rfl
          | some pt =>
            rw [ho] at h
            simp only at h ⊢
            cases hu : unmarshal pt dest with
            | error u => rfl
            | ok j =>
              rw [hu] at h
              simp only at h
              exact Option.noConfusion h

/-- C7 witness: a failing shroud yields no Secret; a failing expose leaves
the destination's previous content in place. -/
theorem claim_C7_atomicity_witness :
    ((Client.mk (List.replicate 32 0)).ShroudGo GoValue.funcV (List.range 12)).1
        = none
    ∧ ((Secret.mk "!!!" (Client.mk (List.replicate 32 0))).ExposeInto
        (some Shape.any) (some (Json.num 1))).1 = some (Json.num 1) :=
  ⟨(claim_C7_atomicity (Client.mk (List.replicate 32 0)) GoValue.funcV
      (List.range 12) (Secret.mk "!!!" (Client.mk (List.replicate 32 0)))
      (some Shape.any) (some (Json.num 1)) ShroudErr.marshalErr
      ShroudErr.invalidSecret).1 (by rfl),
   (claim_C7_atomicity (Client.mk (List.replicate 32 0)) GoValue.funcV
      (List.range 12) (Secret.mk "!!!" (Client.mk (List.replicate 32 0)))
      (some Shape.any) (some (Json.num 1)) ShroudErr.marshalErr
      ShroudErr.invalidSecret).2 (by rfl)⟩

/-- C2 — Tamper detection: with a full-size key, a token whose decoded
bytes are shorter than the 12-byte nonce exposes to `InvalidSecret`, and
flipping any single bit of the decoded bytes of a freshly sealed token
makes `Expose` fail with `InvalidSecret` — never succeed with a different
value. -/
theorem claim_C2_tamper_detection (key : List Nat) (hkey : key.length = 32) :
    (∀ blob, isBytes blob → blob.length < nonceSize →
      (Secret.mk (String.mk (b64encode blob)) (Client.mk key)).Expose
        (some Shape.any) = .error .invalidSecret)
    ∧ (∀ nonce pt i t b, nonce.length = 12 → isBytes nonce → isBytes pt →
        t < 8 → (nonce ++ gcmSeal key nonce pt)[i]? = some b →
        (Secret.mk (String.mk (b64encode
            ((nonce ++ gcmSeal key nonce pt).set i (b ^^^ 2 ^ t))))
          (Client.mk key)).Expose (some Shape.any) = .error .invalidSecret) := by
  have haes : aesKeyOk key := Or.inr (Or.inr hkey)
  constructor
  · intro blob hb hlen
    unfold Secret.Expose
    rw [stringDataMk, b64decode_b64encode blob hb]
    simp only
    rw [if_neg (not_not_intro haes), if_pos hlen]
  · intro nonce pt i t b hn hnb hptb ht hib
    rw [List.getElem?_eq_some] at hib
    obtain ⟨hi, hb⟩ := hib
    rw [← hb]
    exact Expose_flip key nonce pt i t haes hn hnb hptb ht _ rfl hi

/-- C2 witness: a one-byte blob, and bit 0 of byte 0 of a sealed token
flipped. -/
theorem claim_C2_tamper_detection_witness :
    (Secret.mk (String.mk (b64encode [0])) (Client.mk
        (List.replicate 32 0))).Expose (some Shape.any)
      = .error .invalidSecret
    ∧ (Secret.mk (String.mk (b64encode
          ((List.range 12 ++ gcmSeal (List.replicate 32 0) (List.range 12)
            [49]).set 0 (0 ^^^ 2 ^ 0))))
        (Client.mk (List.replicate 32 0))).Expose (some Shape.any)
      = .error .invalidSecret :=
  ⟨(claim_C2_tamper_detection (List.replicate 32 0) (by decide)).1 [0]
      (by decide) (by decide),
   (claim_C2_tamper_detection (List.replicate 32 0) (by decide)).2
      (List.range 12) [49] 0 0 0 (by rfl) (by decide) (by decide) (by decide)
      (by rfl)⟩

/-- C8 counterexample: a Secret built by the public API
(`CreateFromEncrypted` of a well-formed base64 token that does not
decrypt) exposes with a null destination to `InvalidSecret` — decryption
fails before the destination is ever examined — so "for every Secret,
Expose with a null destination fails with InvalidArgument" is false. -/
theorem claim_C8_nil_destination_cex :
    (Client.mk (List.replicate 32 0)).CreateFromEncrypted "AAAAAAAAAAAAAAAA"
        = .ok (Secret.mk "AAAAAAAAAAAAAAAA" (Client.mk (List.replicate 32 0)))
    ∧ (Secret.mk "AAAAAAAAAAAAAAAA"
        (Client.mk (List.replicate 32 0))).Expose none
        = .error .invalidSecret
    ∧ ShroudErr.invalidSecret
        ≠ ShroudErr.unmarshalErr UErr.invalidUnmarshal :=
  ⟨by rfl, by rfl, by decide⟩

/-- C8 — amended: on a Secret freshly produced by `Shroud` (so that
decryption succeeds and the destination is reached), `Expose` with a
null/absent destination fails with the invalid-argument
(invalid-unmarshal) error, distinct from the generic `InvalidSecret`
decrypt failure. -/
theorem claim_C8_nil_destination (key nonce : List Nat) (j : Json)
    (c : Client) (s : Secret)
    (hc : NewSecretClient key = .ok c) (hn : nonce.length = 12)
    (hnb : isBytes nonce)
    (hs : c.Shroud (GoValue.ofJson j) nonce = .ok s) :
    s.Expose none = .error (.unmarshalErr .invalidUnmarshal)
      ∧ ShroudErr.unmarshalErr UErr.invalidUnmarshal
          ≠ ShroudErr.invalidSecret := by
  obtain ⟨hkey, rfl⟩ := NewSecretClient_ok_inv hc
  have haes : aesKeyOk key := Or.inr (Or.inr hkey)
  obtain ⟨j2, hj2, hse, _⟩ := Shroud_ok_inv hs
  rw [goToJson_ofJson] at hj2
  rw [← Option.some.inj hj2] at hse
  refine ⟨?ex, by decide⟩
  rw [hse]
  rw [Expose_of_sealed_gen key nonce j none haes hn hnb, unmarshal_print_nil]

/-- C8 witness: a concrete shrouded Secret exposed into a null
destination. -/
theorem claim_C8_nil_destination_witness :
    (Secret.mk (String.mk (b64encode (List.range 12
        ++ gcmSeal (List.replicate 32 0) (List.range 12)
          (utf8Encode (jsonPrint (Json.num 5)))))) (Client.mk
            (List.replicate 32 0))).Expose none
      = .error (.unmarshalErr .invalidUnmarshal)
    ∧ ShroudErr.unmarshalErr UErr.invalidUnmarshal
        ≠ ShroudErr.invalidSecret :=
  claim_C8_nil_destination (List.replicate 32 0) (List.range 12) (Json.num 5)
    (Client.mk (List.replicate 32 0)) _ (by rfl) (by rfl) (by decide) (by rfl)
